import Mathlib

/-!
Verification of the ML-KEM (FIPS 203) implementation in this repository.

The Python sources are shallowly embedded: polynomial coefficients live in
`Zq = ZMod 3329` (every arithmetic step of the source reduces with `% Q`, so
the canonical residue representation is exact), byte strings are `List Nat`,
and the SHA-3 primitives, which the specification treats as external oracles,
are passed in as function parameters.  Loops with data-dependent trip counts
(the rejection sampler) take a fuel argument and return `Option`.
-/

set_option autoImplicit false

namespace MLKEM

/-- Prime modulus q = 3329 of the ring Zq, from pke/params.py. -/
def Q : Nat := 3329

/-- Polynomial degree N = 256, from pke/params.py. -/
def N : Nat := 256

/-- Residues modulo q.  The source keeps every coefficient reduced with
`% Q`, so Zq values model the stored integers exactly. -/
abbrev Zq := ZMod 3329

/-- A polynomial: the source stores a Python list of 256 integers in [0, q);
we model it as a total function from the index range (entries at 256 and
above are never read or written by the embedded code). -/
abbrev Poly := Nat → Zq

/-- Interpret a list of integers (as produced by samplers and decoders) as a
`Poly`, index i giving coefficient i. -/
def polyOfList (l : List Nat) : Poly := fun i => ((l.getD i 0 : Nat) : Zq)

/-- Read a `Poly` back into the list-of-256-integers form that the source
serializers consume (`.val` is the canonical representative in [0, q)). -/
def listOfPoly (f : Poly) : List Nat := (List.range 256).map (fun i => (f i).val)

/-- Pointwise update of a `Poly`, modelling `f[j] = v` on a Python list. -/
def setP (f : Poly) (j : Nat) (v : Zq) : Poly := fun i => if i = j then v else f i

/-- Seven-bit bit reversal (`bit_rev_7` in utils/poly_utils.py): the loop
`result = (result << 1) | (x & 1); x >>= 1`, seven times. -/
def bit_rev_7 (x : Nat) : Nat :=
  ((List.range 7).foldl (fun (p : Nat × Nat) _ => (2 * p.1 + p.2 % 2, p.2 / 2)) (0, x)).1

/-- Loop body of `mod_pow` in utils/poly_utils.py (binary exponentiation with
state (result, base, exp)).  The extra fuel argument only bounds the number
of iterations so that the recursion is structural; the loop halves exp on
every pass, so fuel = exp always suffices. -/
def mod_pow_go (m : Nat) : Nat → Nat → Nat → Nat → Nat
  | result, _, _, 0 => result
  | result, base, exp, fuel + 1 =>
    if exp = 0 then result
    else mod_pow_go m (if exp % 2 = 1 then result * base % m else result)
      (base * base % m) (exp / 2) fuel

/-- Modular exponentiation (`mod_pow` in utils/poly_utils.py). -/
def mod_pow (base exp m : Nat) : Nat := mod_pow_go m 1 (base % m) exp exp

/-- Twiddle factors zeta^BitRev7(i) mod q (`NTT_FACTORS`, precomputed in
utils/poly_utils.py from ZETA = 17); as elements of Zq. -/
def NTT_FACTORS (i : Nat) : Zq := ((mod_pow 17 (bit_rev_7 i) 3329 : Nat) : Zq)

/-- Factors zeta^(2 BitRev7(i) + 1) mod q (`BASE_CASE_FACTORS` in
utils/poly_utils.py; the exponent is reduced `% (2 * N)` there). -/
def BASE_CASE_FACTORS (i : Nat) : Zq :=
  ((mod_pow 17 ((2 * bit_rev_7 i + 1) % 512) 3329 : Nat) : Zq)

/-- One butterfly of the forward NTT inner loop (utils/poly_utils.py, `ntt`):
`t = zeta * f[j + len]; f[j + len] = f[j] - t; f[j] = f[j] + t`, all mod q. -/
def butterfly (zeta : Zq) (len j : Nat) (f : Poly) : Poly :=
  let t := zeta * f (j + len)
  setP (setP f (j + len) (f j - t)) j (f j + t)

/-- First n butterflies of one block: `for j in range(start, start + length)`. -/
def nttBlockAux (zeta : Zq) (len start n : Nat) (f : Poly) : Poly :=
  (List.range n).foldl (fun g r => butterfly zeta len (start + r) g) f

/-- One block of the forward NTT (a full inner `for j` loop). -/
def nttBlock (zeta : Zq) (len start : Nat) (f : Poly) : Poly :=
  nttBlockAux zeta len start len f

/-- One length level of the forward NTT (the `while start < N` loop); the
state carries the running twiddle index k, incremented once per block. -/
def nttLevel (len : Nat) (kf : Nat × Poly) : Nat × Poly :=
  (List.range (128 / len)).foldl
    (fun kg b => (kg.1 + 1, nttBlock (NTT_FACTORS kg.1) len (2 * len * b) kg.2)) kf

/-- Forward number-theoretic transform (`ntt`, FIPS 203 Algorithm 9, in
utils/poly_utils.py): length runs over 128, 64, ..., 2 with k starting at 1. -/
def ntt (f : Poly) : Poly :=
  ([128, 64, 32, 16, 8, 4, 2].foldl (fun kf len => nttLevel len kf) (1, f)).2

/-- One butterfly of the inverse NTT inner loop (utils/poly_utils.py,
`ntt_inverse`): `t = f[j]; f[j] = t + f[j + len]; f[j + len] = zeta * (f[j + len] - t)`. -/
def invButterfly (zeta : Zq) (len j : Nat) (f : Poly) : Poly :=
  let t := f j
  setP (setP f j (t + f (j + len))) (j + len) (zeta * (f (j + len) - t))

/-- First n butterflies of one inverse-NTT block. -/
def invBlockAux (zeta : Zq) (len start n : Nat) (f : Poly) : Poly :=
  (List.range n).foldl (fun g r => invButterfly zeta len (start + r) g) f

/-- One block of the inverse NTT. -/
def invBlock (zeta : Zq) (len start : Nat) (f : Poly) : Poly :=
  invBlockAux zeta len start len f

/-- One length level of the inverse NTT; k starts at 127 and is decremented
once per block. -/
def invLevel (len : Nat) (kf : Nat × Poly) : Nat × Poly :=
  (List.range (128 / len)).foldl
    (fun kg b => (kg.1 - 1, invBlock (NTT_FACTORS kg.1) len (2 * len * b) kg.2)) kf

/-- Inverse number-theoretic transform (`ntt_inverse`, FIPS 203 Algorithm 10,
in utils/poly_utils.py): length runs over 2, 4, ..., 128 with k starting at
127, then every coefficient is multiplied by 128^(-1) = 3303 mod q. -/
def ntt_inverse (f : Poly) : Poly :=
  let g := ([2, 4, 8, 16, 32, 64, 128].foldl (fun kf len => invLevel len kf) (127, f)).2
  fun i => g i * 3303

/-- Base case multiplication (`base_case_multiply`, Algorithm 12):
(a0 + a1 X)(b0 + b1 X) mod (X^2 - gamma). -/
def base_case_multiply (a0 a1 b0 b1 gamma : Zq) : Zq × Zq :=
  (a0 * b0 + a1 * b1 * gamma, a0 * b1 + a1 * b0)

/-- NTT-domain product (`multiply_ntts`, Algorithm 11): pairwise base-case
products with gamma = BASE_CASE_FACTORS. -/
def multiply_ntts (f g : Poly) : Poly := fun idx =>
  let i := idx / 2
  let c := base_case_multiply (f (2 * i)) (f (2 * i + 1)) (g (2 * i)) (g (2 * i + 1))
    (BASE_CASE_FACTORS i)
  if idx % 2 = 0 then c.1 else c.2

example : NTT_FACTORS 1 = 1729 := by decide
example : NTT_FACTORS 127 = 2154 := by decide

/-! Characterization of the NTT loops, leading to the inversion theorem.
The butterflies of one block act on pairwise disjoint index pairs, so each
block, and then each length level, is described pointwise. -/

lemma butterfly_apply (z : Zq) (len j : Nat) (f : Poly) (i : Nat) :
    butterfly z len j f i =
      if i = j then f j + z * f (j + len)
      else if i = j + len then f j - z * f (j + len) else f i := by
  unfold butterfly setP
  by_cases h1 : i = j
  · simp [h1]
  · by_cases h2 : i = j + len <;> simp [h1, h2]

lemma invButterfly_apply (z : Zq) (len j : Nat) (f : Poly) (i : Nat) :
    invButterfly z len j f i =
      if i = j + len then z * (f (j + len) - f j)
      else if i = j then f j + f (j + len) else f i := by
  unfold invButterfly setP
  by_cases h1 : i = j + len
  · simp [h1]
  · by_cases h2 : i = j <;> simp [h1, h2]

lemma nttBlockAux_succ (z : Zq) (len start n : Nat) (f : Poly) :
    nttBlockAux z len start (n + 1) f
      = butterfly z len (start + n) (nttBlockAux z len start n f) := by
  unfold nttBlockAux
  rw [List.range_succ, List.foldl_append, List.foldl_cons, List.foldl_nil]

lemma invBlockAux_succ (z : Zq) (len start n : Nat) (f : Poly) :
    invBlockAux z len start (n + 1) f
      = invButterfly z len (start + n) (invBlockAux z len start n f) := by
  unfold invBlockAux
  rw [List.range_succ, List.foldl_append, List.foldl_cons, List.foldl_nil]

lemma nttBlockAux_spec (z : Zq) (len start : Nat) (hl : 0 < len) :
    ∀ n, n ≤ len → ∀ f : Poly,
      (∀ i, (i < start ∨ (start + n ≤ i ∧ i < start + len) ∨ start + len + n ≤ i) →
        nttBlockAux z len start n f i = f i) ∧
      (∀ r, r < n →
        nttBlockAux z len start n f (start + r)
            = f (start + r) + z * f (start + r + len) ∧
        nttBlockAux z len start n f (start + r + len)
            = f (start + r) - z * f (start + r + len)) := by
  intro n
  induction n with
  | zero =>
    intro _ f
    refine ⟨fun i _ => rfl, fun r hr => absurd hr (by omega)⟩
  | succ n ih =>
    intro hn f
    obtain ⟨ihu, ihv⟩ := ih (by omega) f
    rw [nttBlockAux_succ]
    have hmid : nttBlockAux z len start n f (start + n) = f (start + n) :=
      ihu (start + n) (by omega)
    have hmid2 : nttBlockAux z len start n f (start + n + len) = f (start + n + len) :=
      ihu (start + n + len) (by omega)
    constructor
    · intro i hi
      rw [butterfly_apply, if_neg (by omega), if_neg (by omega)]
      exact ihu i (by omega)
    · intro r hr
      by_cases hc : r = n
      · subst hc
        rw [butterfly_apply, butterfly_apply, if_pos rfl, if_neg (by omega), if_pos rfl]
        rw [hmid, hmid2]
        exact ⟨rfl, rfl⟩
      · have h1 : start + r ≠ start + n := by omega
        have h2 : (start + r : Nat) ≠ start + n + len := by omega
        have h3 : start + r + len ≠ start + n := by omega
        have h4 : start + r + len ≠ start + n + len := by omega
        rw [butterfly_apply, butterfly_apply, if_neg h1, if_neg h2, if_neg h3, if_neg h4]
        exact ihv r (by omega)

lemma invBlockAux_spec (z : Zq) (len start : Nat) (hl : 0 < len) :
    ∀ n, n ≤ len → ∀ f : Poly,
      (∀ i, (i < start ∨ (start + n ≤ i ∧ i < start + len) ∨ start + len + n ≤ i) →
        invBlockAux z len start n f i = f i) ∧
      (∀ r, r < n →
        invBlockAux z len start n f (start + r)
            = f (start + r) + f (start + r + len) ∧
        invBlockAux z len start n f (start + r + len)
            = z * (f (start + r + len) - f (start + r))) := by
  intro n
  induction n with
  | zero =>
    intro _ f
    refine ⟨fun i _ => rfl, fun r hr => absurd hr (by omega)⟩
  | succ n ih =>
    intro hn f
    obtain ⟨ihu, ihv⟩ := ih (by omega) f
    rw [invBlockAux_succ]
    have hmid : invBlockAux z len start n f (start + n) = f (start + n) :=
      ihu (start + n) (by omega)
    have hmid2 : invBlockAux z len start n f (start + n + len) = f (start + n + len) :=
      ihu (start + n + len) (by omega)
    constructor
    · intro i hi
      rw [invButterfly_apply, if_neg (by omega), if_neg (by omega)]
      exact ihu i (by omega)
    · intro r hr
      by_cases hc : r = n
      · subst hc
        rw [invButterfly_apply, invButterfly_apply, if_neg (by omega), if_pos rfl, if_pos rfl]
        rw [hmid, hmid2]
        exact ⟨rfl, rfl⟩
      · have h1 : start + r ≠ start + n := by omega
        have h2 : (start + r : Nat) ≠ start + n + len := by omega
        have h3 : start + r + len ≠ start + n := by omega
        have h4 : start + r + len ≠ start + n + len := by omega
        rw [invButterfly_apply, invButterfly_apply, if_neg h2, if_neg h1, if_neg h4, if_neg h3]
        exact ihv r (by omega)

/-- Non-threaded form of one forward level: block b uses twiddle index k0 + b
and starts at 2 len b. -/
def nttLevelP (len k0 p : Nat) (f : Poly) : Poly :=
  (List.range p).foldl (fun g b => nttBlock (NTT_FACTORS (k0 + b)) len (2 * len * b) g) f

/-- Non-threaded form of one inverse level: block b uses twiddle index k1 - b. -/
def invLevelP (len k1 p : Nat) (f : Poly) : Poly :=
  (List.range p).foldl (fun g b => invBlock (NTT_FACTORS (k1 - b)) len (2 * len * b) g) f

lemma nttLevelP_succ (len k0 p : Nat) (f : Poly) :
    nttLevelP len k0 (p + 1) f
      = nttBlock (NTT_FACTORS (k0 + p)) len (2 * len * p) (nttLevelP len k0 p f) := by
  unfold nttLevelP
  rw [List.range_succ, List.foldl_append, List.foldl_cons, List.foldl_nil]

lemma invLevelP_succ (len k1 p : Nat) (f : Poly) :
    invLevelP len k1 (p + 1) f
      = invBlock (NTT_FACTORS (k1 - p)) len (2 * len * p) (invLevelP len k1 p f) := by
  unfold invLevelP
  rw [List.range_succ, List.foldl_append, List.foldl_cons, List.foldl_nil]

/-- Relates the source loop, which threads the twiddle counter k through the
state, to the non-threaded form. -/
lemma nttLevel_thread (len : Nat) :
    ∀ p k (f : Poly),
      (List.range p).foldl
        (fun kg b => (kg.1 + 1, nttBlock (NTT_FACTORS kg.1) len (2 * len * b) kg.2)) (k, f)
      = (k + p, nttLevelP len k p f) := by
  intro p
  induction p with
  | zero => intro k f; rfl
  | succ p ih =>
    intro k f
    rw [List.range_succ, List.foldl_append, List.foldl_cons, List.foldl_nil, ih,
      nttLevelP_succ]
    exact congrArg₂ Prod.mk (by omega) rfl

lemma invLevel_thread (len : Nat) :
    ∀ p k (f : Poly),
      (List.range p).foldl
        (fun kg b => (kg.1 - 1, invBlock (NTT_FACTORS kg.1) len (2 * len * b) kg.2)) (k, f)
      = (k - p, invLevelP len k p f) := by
  intro p
  induction p with
  | zero => intro k f; rfl
  | succ p ih =>
    intro k f
    rw [List.range_succ, List.foldl_append, List.foldl_cons, List.foldl_nil, ih,
      invLevelP_succ]
    exact congrArg₂ Prod.mk (by omega) rfl

lemma nttLevel_eq (len k : Nat) (f : Poly) :
    nttLevel len (k, f) = (k + 128 / len, nttLevelP len k (128 / len) f) :=
  nttLevel_thread len (128 / len) k f

lemma invLevel_eq (len k : Nat) (f : Poly) :
    invLevel len (k, f) = (k - 128 / len, invLevelP len k (128 / len) f) :=
  invLevel_thread len (128 / len) k f

lemma nttLevelP_spec (len k0 : Nat) (hl : 0 < len) :
    ∀ p (f : Poly),
      (∀ i, 2 * len * p ≤ i → nttLevelP len k0 p f i = f i) ∧
      (∀ b, b < p → ∀ r, r < len →
        nttLevelP len k0 p f (2 * len * b + r)
          = f (2 * len * b + r) + NTT_FACTORS (k0 + b) * f (2 * len * b + r + len) ∧
        nttLevelP len k0 p f (2 * len * b + r + len)
          = f (2 * len * b + r) - NTT_FACTORS (k0 + b) * f (2 * len * b + r + len)) := by
  intro p
  induction p with
  | zero =>
    intro f
    refine ⟨fun i _ => rfl, fun b hb => absurd hb (by omega)⟩
  | succ p ih =>
    intro f
    obtain ⟨ihu, ihv⟩ := ih f
    rw [nttLevelP_succ]
    unfold nttBlock
    obtain ⟨bu, bv⟩ := nttBlockAux_spec (NTT_FACTORS (k0 + p)) len (2 * len * p) hl len
      (le_refl len) (nttLevelP len k0 p f)
    have hms : 2 * len * (p + 1) = 2 * len * p + 2 * len := Nat.mul_succ (2 * len) p
    constructor
    · intro i hi
      rw [hms] at hi
      rw [bu i (by omega)]
      exact ihu i (by omega)
    · intro b hb r hr
      by_cases hc : b = p
      · subst hc
        obtain ⟨e1, e2⟩ := bv r hr
        rw [e1, e2, ihu (2 * len * b + r) (by omega), ihu (2 * len * b + r + len) (by omega)]
        exact ⟨rfl, rfl⟩
      · have hbp : 2 * len * (b + 1) ≤ 2 * len * p :=
          Nat.mul_le_mul_left (2 * len) (by omega)
        rw [Nat.mul_succ] at hbp
        have h1 : nttBlockAux (NTT_FACTORS (k0 + p)) len (2 * len * p) len
            (nttLevelP len k0 p f) (2 * len * b + r)
            = nttLevelP len k0 p f (2 * len * b + r) := bu _ (by omega)
        have h2 : nttBlockAux (NTT_FACTORS (k0 + p)) len (2 * len * p) len
            (nttLevelP len k0 p f) (2 * len * b + r + len)
            = nttLevelP len k0 p f (2 * len * b + r + len) := bu _ (by omega)
        rw [h1, h2]
        exact ihv b (by omega) r hr

lemma invLevelP_spec (len k1 : Nat) (hl : 0 < len) :
    ∀ p (f : Poly),
      (∀ i, 2 * len * p ≤ i → invLevelP len k1 p f i = f i) ∧
      (∀ b, b < p → ∀ r, r < len →
        invLevelP len k1 p f (2 * len * b + r)
          = f (2 * len * b + r) + f (2 * len * b + r + len) ∧
        invLevelP len k1 p f (2 * len * b + r + len)
          = NTT_FACTORS (k1 - b) * (f (2 * len * b + r + len) - f (2 * len * b + r))) := by
  intro p
  induction p with
  | zero =>
    intro f
    refine ⟨fun i _ => rfl, fun b hb => absurd hb (by omega)⟩
  | succ p ih =>
    intro f
    obtain ⟨ihu, ihv⟩ := ih f
    rw [invLevelP_succ]
    unfold invBlock
    obtain ⟨bu, bv⟩ := invBlockAux_spec (NTT_FACTORS (k1 - p)) len (2 * len * p) hl len
      (le_refl len) (invLevelP len k1 p f)
    have hms : 2 * len * (p + 1) = 2 * len * p + 2 * len := Nat.mul_succ (2 * len) p
    constructor
    · intro i hi
      rw [hms] at hi
      rw [bu i (by omega)]
      exact ihu i (by omega)
    · intro b hb r hr
      by_cases hc : b = p
      · subst hc
        obtain ⟨e1, e2⟩ := bv r hr
        rw [e1, e2, ihu (2 * len * b + r) (by omega), ihu (2 * len * b + r + len) (by omega)]
        exact ⟨rfl, rfl⟩
      · have hbp : 2 * len * (b + 1) ≤ 2 * len * p :=
          Nat.mul_le_mul_left (2 * len) (by omega)
        rw [Nat.mul_succ] at hbp
        have h1 : invBlockAux (NTT_FACTORS (k1 - p)) len (2 * len * p) len
            (invLevelP len k1 p f) (2 * len * b + r)
            = invLevelP len k1 p f (2 * len * b + r) := bu _ (by omega)
        have h2 : invBlockAux (NTT_FACTORS (k1 - p)) len (2 * len * p) len
            (invLevelP len k1 p f) (2 * len * b + r + len)
            = invLevelP len k1 p f (2 * len * b + r + len) := bu _ (by omega)
        rw [h1, h2]
        exact ihv b (by omega) r hr

lemma block_decomp (len p i : Nat) (hl : 0 < len) (hi : i < 2 * len * p) :
    ∃ b r, b < p ∧ r < len ∧ (i = 2 * len * b + r ∨ i = 2 * len * b + r + len) := by
  have hL : 0 < 2 * len := by omega
  have hdm := Nat.div_add_mod i (2 * len)
  have hmod : i % (2 * len) < 2 * len := Nat.mod_lt _ hL
  have hb : i / (2 * len) < p := Nat.div_lt_of_lt_mul hi
  by_cases hr : i % (2 * len) < len
  · exact ⟨i / (2 * len), i % (2 * len), hb, hr, Or.inl (by omega)⟩
  · exact ⟨i / (2 * len), i % (2 * len) - len, hb, by omega, Or.inr (by omega)⟩

lemma invLevelP_smul (len k1 p : Nat) (hl : 0 < len) (c : Zq) (f : Poly) (i : Nat) :
    invLevelP len k1 p (fun j => c * f j) i = c * invLevelP len k1 p f i := by
  obtain ⟨u1, v1⟩ := invLevelP_spec len k1 hl p (fun j => c * f j)
  obtain ⟨u2, v2⟩ := invLevelP_spec len k1 hl p f
  by_cases hi : i < 2 * len * p
  · obtain ⟨b, r, hb, hr, hcase⟩ := block_decomp len p i hl hi
    rcases hcase with h | h <;> subst h
    · rw [(v1 b hb r hr).1, (v2 b hb r hr).1]; ring
    · rw [(v1 b hb r hr).2, (v2 b hb r hr).2]; ring
  · rw [u1 i (by omega), u2 i (by omega)]

lemma invLevelP_congr (len k1 p : Nat) (hl : 0 < len) (g1 g2 : Poly)
    (h : ∀ j, j < 2 * len * p → g1 j = g2 j) (i : Nat) (hi : i < 2 * len * p) :
    invLevelP len k1 p g1 i = invLevelP len k1 p g2 i := by
  obtain ⟨u1, v1⟩ := invLevelP_spec len k1 hl p g1
  obtain ⟨u2, v2⟩ := invLevelP_spec len k1 hl p g2
  obtain ⟨b, r, hb, hr, hcase⟩ := block_decomp len p i hl hi
  have hbp : 2 * len * (b + 1) ≤ 2 * len * p := Nat.mul_le_mul_left (2 * len) (by omega)
  rw [Nat.mul_succ] at hbp
  have e1 : g1 (2 * len * b + r) = g2 (2 * len * b + r) := h _ (by omega)
  have e2 : g1 (2 * len * b + r + len) = g2 (2 * len * b + r + len) := h _ (by omega)
  rcases hcase with hc | hc <;> subst hc
  · rw [(v1 b hb r hr).1, (v2 b hb r hr).1, e1, e2]
  · rw [(v1 b hb r hr).2, (v2 b hb r hr).2, e1, e2]

/-- One inverse level undoes the matching forward level up to a factor 2:
the paired twiddles multiply to minus one. -/
lemma level_roundtrip (len m : Nat) (hl : 0 < len)
    (hz : ∀ b, b < m → NTT_FACTORS (m + b) * NTT_FACTORS (2 * m - 1 - b) = -1)
    (f : Poly) :
    (∀ i, i < 2 * len * m →
      invLevelP len (2 * m - 1) m (nttLevelP len m m f) i = 2 * f i) ∧
    (∀ i, 2 * len * m ≤ i →
      invLevelP len (2 * m - 1) m (nttLevelP len m m f) i = f i) := by
  obtain ⟨fu, fv⟩ := nttLevelP_spec len m hl m f
  obtain ⟨iu, iv⟩ := invLevelP_spec len (2 * m - 1) hl m (nttLevelP len m m f)
  constructor
  · intro i hi
    obtain ⟨b, r, hb, hr, hcase⟩ := block_decomp len m i hl hi
    have hzz := hz b hb
    have hidx : 2 * m - 1 - b = 2 * m - 1 - b := rfl
    rcases hcase with hc | hc <;> subst hc
    · rw [(iv b hb r hr).1, (fv b hb r hr).1, (fv b hb r hr).2]
      ring
    · rw [(iv b hb r hr).2, (fv b hb r hr).1, (fv b hb r hr).2]
      linear_combination (-2 * f (2 * len * b + r + len)) * hzz
  · intro i hi
    rw [iu i hi, fu i hi]

lemma ntt_eq (f : Poly) :
    ntt f = nttLevelP 2 64 64 (nttLevelP 4 32 32 (nttLevelP 8 16 16 (nttLevelP 16 8 8
      (nttLevelP 32 4 4 (nttLevelP 64 2 2 (nttLevelP 128 1 1 f)))))) := by
  unfold ntt
  simp only [List.foldl_cons, List.foldl_nil, nttLevel_eq]

lemma ntt_inverse_eq (f : Poly) (i : Nat) :
    ntt_inverse f i
      = invLevelP 128 1 1 (invLevelP 64 3 2 (invLevelP 32 7 4 (invLevelP 16 15 8
          (invLevelP 8 31 16 (invLevelP 4 63 32 (invLevelP 2 127 64 f)))))) i * 3303 := by
  unfold ntt_inverse
  simp only [List.foldl_cons, List.foldl_nil, invLevel_eq]

/-- Core inversion fact: the inverse transform undoes the forward transform
on every coefficient index. -/
lemma ntt_inverse_ntt (f : Poly) : ∀ i, i < 256 → ntt_inverse (ntt f) i = f i := by
  intro i hi
  rw [ntt_inverse_eq, ntt_eq]
  have s1 : ∀ j, j < 256 →
      invLevelP 2 127 64 (nttLevelP 2 64 64 (nttLevelP 4 32 32 (nttLevelP 8 16 16
        (nttLevelP 16 8 8 (nttLevelP 32 4 4 (nttLevelP 64 2 2 (nttLevelP 128 1 1 f))))))) j
      = 2 * nttLevelP 4 32 32 (nttLevelP 8 16 16 (nttLevelP 16 8 8 (nttLevelP 32 4 4
          (nttLevelP 64 2 2 (nttLevelP 128 1 1 f))))) j := by
    intro j hj
    exact (level_roundtrip 2 64 (by norm_num) (by decide) _).1 j (by omega)
  have s2 : ∀ j, j < 256 →
      invLevelP 4 63 32 (invLevelP 2 127 64 (nttLevelP 2 64 64 (nttLevelP 4 32 32
        (nttLevelP 8 16 16 (nttLevelP 16 8 8 (nttLevelP 32 4 4 (nttLevelP 64 2 2
          (nttLevelP 128 1 1 f)))))))) j
      = 2 * (2 * nttLevelP 8 16 16 (nttLevelP 16 8 8 (nttLevelP 32 4 4
          (nttLevelP 64 2 2 (nttLevelP 128 1 1 f)))) j) := by
    intro j hj
    rw [invLevelP_congr 4 63 32 (by norm_num) _
      (fun t => 2 * nttLevelP 4 32 32 (nttLevelP 8 16 16 (nttLevelP 16 8 8
        (nttLevelP 32 4 4 (nttLevelP 64 2 2 (nttLevelP 128 1 1 f))))) t)
      (fun t ht => s1 t (by omega)) j (by omega)]
    rw [invLevelP_smul 4 63 32 (by norm_num)]
    rw [(level_roundtrip 4 32 (by norm_num) (by decide) _).1 j (by omega)]
  have s3 : ∀ j, j < 256 →
      invLevelP 8 31 16 (invLevelP 4 63 32 (invLevelP 2 127 64 (nttLevelP 2 64 64
        (nttLevelP 4 32 32 (nttLevelP 8 16 16 (nttLevelP 16 8 8 (nttLevelP 32 4 4
          (nttLevelP 64 2 2 (nttLevelP 128 1 1 f))))))))) j
      = 2 * (2 * (2 * nttLevelP 16 8 8 (nttLevelP 32 4 4
          (nttLevelP 64 2 2 (nttLevelP 128 1 1 f))) j)) := by
    intro j hj
    rw [invLevelP_congr 8 31 16 (by norm_num) _
      (fun t => 2 * (2 * nttLevelP 8 16 16 (nttLevelP 16 8 8 (nttLevelP 32 4 4
        (nttLevelP 64 2 2 (nttLevelP 128 1 1 f)))) t))
      (fun t ht => s2 t (by omega)) j (by omega)]
    rw [invLevelP_smul 8 31 16 (by norm_num)]
    rw [invLevelP_smul 8 31 16 (by norm_num)]
    rw [(level_roundtrip 8 16 (by norm_num) (by decide) _).1 j (by omega)]
  have s4 : ∀ j, j < 256 →
      invLevelP 16 15 8 (invLevelP 8 31 16 (invLevelP 4 63 32 (invLevelP 2 127 64
        (nttLevelP 2 64 64 (nttLevelP 4 32 32 (nttLevelP 8 16 16 (nttLevelP 16 8 8
          (nttLevelP 32 4 4 (nttLevelP 64 2 2 (nttLevelP 128 1 1 f)))))))))) j
      = 2 * (2 * (2 * (2 * nttLevelP 32 4 4
          (nttLevelP 64 2 2 (nttLevelP 128 1 1 f)) j))) := by
    intro j hj
    rw [invLevelP_congr 16 15 8 (by norm_num) _
      (fun t => 2 * (2 * (2 * nttLevelP 16 8 8 (nttLevelP 32 4 4
        (nttLevelP 64 2 2 (nttLevelP 128 1 1 f))) t)))
      (fun t ht => s3 t (by omega)) j (by omega)]
    rw [invLevelP_smul 16 15 8 (by norm_num)]
    rw [invLevelP_smul 16 15 8 (by norm_num)]
    rw [invLevelP_smul 16 15 8 (by norm_num)]
    rw [(level_roundtrip 16 8 (by norm_num) (by decide) _).1 j (by omega)]
  have s5 : ∀ j, j < 256 →
      invLevelP 32 7 4 (invLevelP 16 15 8 (invLevelP 8 31 16 (invLevelP 4 63 32
        (invLevelP 2 127 64 (nttLevelP 2 64 64 (nttLevelP 4 32 32 (nttLevelP 8 16 16
          (nttLevelP 16 8 8 (nttLevelP 32 4 4 (nttLevelP 64 2 2
            (nttLevelP 128 1 1 f))))))))))) j
      = 2 * (2 * (2 * (2 * (2 * nttLevelP 64 2 2 (nttLevelP 128 1 1 f) j)))) := by
    intro j hj
    rw [invLevelP_congr 32 7 4 (by norm_num) _
      (fun t => 2 * (2 * (2 * (2 * nttLevelP 32 4 4
        (nttLevelP 64 2 2 (nttLevelP 128 1 1 f)) t))))
      (fun t ht => s4 t (by omega)) j (by omega)]
    rw [invLevelP_smul 32 7 4 (by norm_num)]
    rw [invLevelP_smul 32 7 4 (by norm_num)]
    rw [invLevelP_smul 32 7 4 (by norm_num)]
    rw [invLevelP_smul 32 7 4 (by norm_num)]
    rw [(level_roundtrip 32 4 (by norm_num) (by decide) _).1 j (by omega)]
  have s6 : ∀ j, j < 256 →
      invLevelP 64 3 2 (invLevelP 32 7 4 (invLevelP 16 15 8 (invLevelP 8 31 16
        (invLevelP 4 63 32 (invLevelP 2 127 64 (nttLevelP 2 64 64 (nttLevelP 4 32 32
          (nttLevelP 8 16 16 (nttLevelP 16 8 8 (nttLevelP 32 4 4 (nttLevelP 64 2 2
            (nttLevelP 128 1 1 f)))))))))))) j
      = 2 * (2 * (2 * (2 * (2 * (2 * nttLevelP 128 1 1 f j))))) := by
    intro j hj
    rw [invLevelP_congr 64 3 2 (by norm_num) _
      (fun t => 2 * (2 * (2 * (2 * (2 * nttLevelP 64 2 2 (nttLevelP 128 1 1 f) t)))))
      (fun t ht => s5 t (by omega)) j (by omega)]
    rw [invLevelP_smul 64 3 2 (by norm_num)]
    rw [invLevelP_smul 64 3 2 (by norm_num)]
    rw [invLevelP_smul 64 3 2 (by norm_num)]
    rw [invLevelP_smul 64 3 2 (by norm_num)]
    rw [invLevelP_smul 64 3 2 (by norm_num)]
    rw [(level_roundtrip 64 2 (by norm_num) (by decide) _).1 j (by omega)]
  have s7 : invLevelP 128 1 1 (invLevelP 64 3 2 (invLevelP 32 7 4 (invLevelP 16 15 8
        (invLevelP 8 31 16 (invLevelP 4 63 32 (invLevelP 2 127 64 (nttLevelP 2 64 64
          (nttLevelP 4 32 32 (nttLevelP 8 16 16 (nttLevelP 16 8 8 (nttLevelP 32 4 4
            (nttLevelP 64 2 2 (nttLevelP 128 1 1 f))))))))))))) i
      = 2 * (2 * (2 * (2 * (2 * (2 * (2 * f i)))))) := by
    rw [invLevelP_congr 128 1 1 (by norm_num) _
      (fun t => 2 * (2 * (2 * (2 * (2 * (2 * nttLevelP 128 1 1 f t))))))
      (fun t ht => s6 t (by omega)) i (by omega)]
    rw [invLevelP_smul 128 1 1 (by norm_num)]
    rw [invLevelP_smul 128 1 1 (by norm_num)]
    rw [invLevelP_smul 128 1 1 (by norm_num)]
    rw [invLevelP_smul 128 1 1 (by norm_num)]
    rw [invLevelP_smul 128 1 1 (by norm_num)]
    rw [invLevelP_smul 128 1 1 (by norm_num)]
    rw [(level_roundtrip 128 1 (by norm_num) (by decide) _).1 i (by omega)]
  rw [s7]
  have h128 : (2 * (2 * (2 * (2 * (2 * (2 * (2 * f i)))))) : Zq) = 128 * f i := by ring
  rw [h128, mul_comm (128 : Zq) (f i), mul_assoc]
  have : (128 * 3303 : Zq) = 1 := by decide
  rw [this, mul_one]

/-! Bit and byte codec, from utils/serialization.py. -/

/-- Little-endian bit expansion of one integer: the loop
`bits.append(a % 2); a = a // 2`, run d times (inner loops of `byte_encode`
and `bytes_to_bits`). -/
def coeffBits : Nat → Nat → List Nat
  | 0, _ => []
  | d + 1, a => a % 2 :: coeffBits d (a / 2)

/-- Value of a little-endian bit list: sum of bits[j] * 2^j. -/
def bitsVal : List Nat → Nat
  | [] => 0
  | b :: rest => b + 2 * bitsVal rest

/-- Packs bits into bytes (`bits_to_bytes`, Algorithm 3): the source loop
`B[i // 8] += bits[i] * 2^(i % 8)` makes byte i the value of bits
8i..8i+7, little-endian.  The source raises ValueError when the length is
not a multiple of 8; the embedding drops such a ragged tail (no caller
produces one). -/
def bits_to_bytes : List Nat → List Nat
  | b0 :: b1 :: b2 :: b3 :: b4 :: b5 :: b6 :: b7 :: rest =>
      bitsVal [b0, b1, b2, b3, b4, b5, b6, b7] :: bits_to_bytes rest
  | _ => []

/-- Unpacks bytes into bits (`bytes_to_bits`, Algorithm 4): each byte yields
its 8 little-endian bits `C[i] % 2; C[i] //= 2`. -/
def bytes_to_bits (data : List Nat) : List Nat := data.flatMap (coeffBits 8)

/-- Encodes 256 integers into 32 d bytes (`byte_encode`, Algorithm 5): d
little-endian bits per coefficient, packed; the source validates d, the
length and the coefficient range with ValueError, modelled as `none`. -/
def byte_encode (F : List Nat) (d : Nat) : Option (List Nat) :=
  if 1 ≤ d ∧ d ≤ 12 then
    if F.length = 256 then
      let m := if d < 12 then 2 ^ d else 3329
      if F.all (fun x => decide (x < m)) then
        some (bits_to_bytes (F.flatMap (coeffBits d)))
      else none
    else none
  else none

/-- Decodes 32 d bytes into 256 integers (`byte_decode`, Algorithm 6):
coefficient i is the value of bits i d .. i d + d - 1, reduced mod m
(m = 2^d for d < 12, m = q for d = 12). -/
def byte_decode (B : List Nat) (d : Nat) : Option (List Nat) :=
  if 1 ≤ d ∧ d ≤ 12 then
    if B.length = 32 * d then
      let m := if d < 12 then 2 ^ d else 3329
      let bits := bytes_to_bits B
      some ((List.range 256).map (fun i => bitsVal ((bits.drop (i * d)).take d) % m))
    else none
  else none

/-- Wrapper `byte_encode_12` from utils/serialization.py. -/
def byte_encode_12 (f : List Nat) : Option (List Nat) := byte_encode f 12

/-- Wrapper `byte_decode_12` from utils/serialization.py. -/
def byte_decode_12 (data : List Nat) : Option (List Nat) := byte_decode data 12

/-! Codec lemmas. -/

lemma coeffBits_length : ∀ d a, (coeffBits d a).length = d := by
  intro d
  induction d with
  | zero => intro a; rfl
  | succ d ih => intro a; simp [coeffBits, ih]

lemma coeffBits_lt_two : ∀ d a, ∀ b ∈ coeffBits d a, b < 2 := by
  intro d
  induction d with
  | zero => intro a b hb; simp [coeffBits] at hb
  | succ d ih =>
    intro a b hb
    simp only [coeffBits, List.mem_cons] at hb
    rcases hb with h | h
    · omega
    · exact ih _ b h

lemma mod_two_pow_succ (a d : Nat) : a % 2 ^ (d + 1) = a % 2 + 2 * (a / 2 % 2 ^ d) := by
  have hp : (0 : Nat) < 2 ^ d := Nat.pos_pow_of_pos d (by omega)
  have e2 : 2 ^ d * (a / 2 / 2 ^ d) + a / 2 % 2 ^ d = a / 2 := Nat.div_add_mod _ _
  have e1 : 2 * (a / 2) + a % 2 = a := Nat.div_add_mod a 2
  have key : 2 ^ (d + 1) * (a / 2 / 2 ^ d) + (a % 2 + 2 * (a / 2 % 2 ^ d)) = a := by
    calc 2 ^ (d + 1) * (a / 2 / 2 ^ d) + (a % 2 + 2 * (a / 2 % 2 ^ d))
        = 2 * (2 ^ d * (a / 2 / 2 ^ d) + a / 2 % 2 ^ d) + a % 2 := by ring
      _ = 2 * (a / 2) + a % 2 := by rw [e2]
      _ = a := e1
  conv_lhs => rw [← key]
  rw [Nat.mul_add_mod]
  apply Nat.mod_eq_of_lt
  have h1 : a / 2 % 2 ^ d < 2 ^ d := Nat.mod_lt _ hp
  have h2 : a % 2 < 2 := Nat.mod_lt _ (by omega)
  have h3 : 2 ^ (d + 1) = 2 * 2 ^ d := by ring
  omega

lemma bitsVal_coeffBits : ∀ d a, bitsVal (coeffBits d a) = a % 2 ^ d := by
  intro d
  induction d with
  | zero => intro a; simp [coeffBits, bitsVal, Nat.mod_one]
  | succ d ih => intro a; rw [coeffBits, bitsVal, ih, mod_two_pow_succ]

lemma coeffBits_bitsVal : ∀ l : List Nat, (∀ b ∈ l, b < 2) →
    coeffBits l.length (bitsVal l) = l := by
  intro l
  induction l with
  | nil => intro _; rfl
  | cons b rest ih =>
    intro h
    have hb : b < 2 := h b (by simp)
    have h1 : (b + 2 * bitsVal rest) % 2 = b := by omega
    have h2 : (b + 2 * bitsVal rest) / 2 = bitsVal rest := by omega
    simp only [List.length_cons, bitsVal, coeffBits, h1, h2]
    rw [ih (fun x hx => h x (by simp [hx]))]

lemma bits_to_bytes_cons8 (b0 b1 b2 b3 b4 b5 b6 b7 : Nat) (rest : List Nat) :
    bits_to_bytes (b0 :: b1 :: b2 :: b3 :: b4 :: b5 :: b6 :: b7 :: rest)
      = bitsVal [b0, b1, b2, b3, b4, b5, b6, b7] :: bits_to_bytes rest := rfl

lemma bits_to_bytes_length : ∀ (L : Nat) (bits : List Nat), bits.length = 8 * L →
    (bits_to_bytes bits).length = L := by
  intro L
  induction L with
  | zero =>
    intro bits hlen
    have : bits = [] := List.eq_nil_of_length_eq_zero (by omega)
    subst this
    rfl
  | succ L ih =>
    intro bits hlen
    rcases bits with _ | ⟨b0, _ | ⟨b1, _ | ⟨b2, _ | ⟨b3, _ | ⟨b4, _ | ⟨b5, _ | ⟨b6, _ | ⟨b7, rest⟩⟩⟩⟩⟩⟩⟩⟩
    all_goals simp only [List.length_cons, List.length_nil] at hlen
    all_goals try omega
    rw [bits_to_bytes_cons8]
    simp only [List.length_cons, ih rest (by omega)]

lemma bytes_to_bits_cons (x : Nat) (rest : List Nat) :
    bytes_to_bits (x :: rest) = coeffBits 8 x ++ bytes_to_bits rest := rfl

lemma bytes_to_bits_length (data : List Nat) :
    (bytes_to_bits data).length = 8 * data.length := by
  induction data with
  | nil => rfl
  | cons x rest ih =>
    rw [bytes_to_bits_cons]
    simp only [List.length_append, coeffBits_length, ih, List.length_cons]
    omega

lemma bytes_to_bits_lt_two (data : List Nat) : ∀ b ∈ bytes_to_bits data, b < 2 := by
  induction data with
  | nil => intro b hb; simp [bytes_to_bits] at hb
  | cons x rest ih =>
    intro b hb
    rw [bytes_to_bits_cons, List.mem_append] at hb
    rcases hb with h | h
    · exact coeffBits_lt_two 8 x b h
    · exact ih b h

lemma bytes_to_bits_bits_to_bytes : ∀ (L : Nat) (bits : List Nat),
    bits.length = 8 * L → (∀ b ∈ bits, b < 2) →
    bytes_to_bits (bits_to_bytes bits) = bits := by
  intro L
  induction L with
  | zero =>
    intro bits hlen _
    have : bits = [] := List.eq_nil_of_length_eq_zero (by omega)
    subst this
    rfl
  | succ L ih =>
    intro bits hlen hb
    rcases bits with _ | ⟨b0, _ | ⟨b1, _ | ⟨b2, _ | ⟨b3, _ | ⟨b4, _ | ⟨b5, _ | ⟨b6, _ | ⟨b7, rest⟩⟩⟩⟩⟩⟩⟩⟩
    all_goals simp only [List.length_cons, List.length_nil] at hlen
    all_goals try omega
    rw [bits_to_bytes_cons8, bytes_to_bits_cons]
    have hv : coeffBits 8 (bitsVal [b0, b1, b2, b3, b4, b5, b6, b7])
        = [b0, b1, b2, b3, b4, b5, b6, b7] := by
      have := coeffBits_bitsVal [b0, b1, b2, b3, b4, b5, b6, b7]
        (by intro x hx; simp only [List.mem_cons, List.not_mem_nil, or_false] at hx
            rcases hx with h|h|h|h|h|h|h|h <;> subst h <;>
              exact hb _ (by simp))
      simpa using this
    rw [hv]
    have hrest : bytes_to_bits (bits_to_bytes rest) = rest :=
      ih rest (by omega) (fun b hbm => hb b (by simp [hbm]))
    rw [hrest]
    rfl

lemma bits_to_bytes_bytes_to_bits : ∀ data : List Nat, (∀ x ∈ data, x < 256) →
    bits_to_bytes (bytes_to_bits data) = data := by
  intro data
  induction data with
  | nil => intro _; rfl
  | cons x rest ih =>
    intro h
    have hx : x < 256 := h x (by simp)
    rw [bytes_to_bits_cons]
    show bits_to_bytes
      (x % 2 :: x / 2 % 2 :: x / 2 / 2 % 2 :: x / 2 / 2 / 2 % 2 ::
       x / 2 / 2 / 2 / 2 % 2 :: x / 2 / 2 / 2 / 2 / 2 % 2 ::
       x / 2 / 2 / 2 / 2 / 2 / 2 % 2 :: x / 2 / 2 / 2 / 2 / 2 / 2 / 2 % 2 ::
       bytes_to_bits rest) = x :: rest
    rw [bits_to_bytes_cons8]
    have hval : bitsVal [x % 2, x / 2 % 2, x / 2 / 2 % 2, x / 2 / 2 / 2 % 2,
        x / 2 / 2 / 2 / 2 % 2, x / 2 / 2 / 2 / 2 / 2 % 2,
        x / 2 / 2 / 2 / 2 / 2 / 2 % 2, x / 2 / 2 / 2 / 2 / 2 / 2 / 2 % 2] = x := by
      simp only [bitsVal]
      omega
    rw [hval, ih (fun y hy => h y (by simp [hy]))]

lemma flatMap_chunk (d : Nat) : ∀ (F : List Nat) (i : Nat), i < F.length →
    ((F.flatMap (coeffBits d)).drop (i * d)).take d = coeffBits d (F.getD i 0) := by
  intro F
  induction F with
  | nil => intro i hi; simp at hi
  | cons a F ih =>
    intro i hi
    cases i with
    | zero =>
      simp only [List.flatMap_cons, Nat.zero_mul, List.drop_zero, List.getD_cons_zero]
      have h := List.take_left (coeffBits d a) (F.flatMap (coeffBits d))
      rwa [coeffBits_length d a] at h
    | succ i =>
      simp only [List.flatMap_cons, List.getD_cons_succ]
      have hstep : (i + 1) * d = (coeffBits d a).length + i * d := by
        rw [coeffBits_length]; ring
      rw [hstep, List.drop_append]
      exact ih i (by simpa using hi)

lemma flatMap_coeffBits_length (d : Nat) : ∀ F : List Nat,
    (F.flatMap (coeffBits d)).length = F.length * d := by
  intro F
  induction F with
  | nil => simp
  | cons a F ih =>
    simp only [List.flatMap_cons, List.length_append, coeffBits_length, ih, List.length_cons]
    ring

lemma flatMap_coeffBits_lt_two (d : Nat) (F : List Nat) :
    ∀ b ∈ F.flatMap (coeffBits d), b < 2 := by
  intro b hb
  rw [List.mem_flatMap] at hb
  obtain ⟨a, _, hbm⟩ := hb
  exact coeffBits_lt_two d a b hbm

lemma range_map_getD : ∀ F : List Nat,
    (List.range F.length).map (fun i => F.getD i 0) = F := by
  intro F
  induction F with
  | nil => rfl
  | cons a F ih =>
    have hfun : ((fun i => (a :: F).getD i 0) ∘ Nat.succ) = (fun i => F.getD i 0) := by
      funext i; exact List.getD_cons_succ
    rw [List.length_cons, List.range_succ_eq_map, List.map_cons, List.map_map, hfun, ih]
    simp

lemma flatMap_congr {l : List Nat} {f g : Nat → List Nat}
    (h : ∀ x ∈ l, f x = g x) : l.flatMap f = l.flatMap g := by
  induction l with
  | nil => rfl
  | cons a t ih =>
    rw [List.flatMap_cons, List.flatMap_cons, h a (by simp),
      ih (fun x hx => h x (by simp [hx]))]

lemma chunks_join (d : Nat) : ∀ (n : Nat) (bits : List Nat), bits.length = n * d →
    (List.range n).flatMap (fun i => (bits.drop (i * d)).take d) = bits := by
  intro n
  induction n with
  | zero =>
    intro bits hlen
    have : bits = [] := List.eq_nil_of_length_eq_zero (by omega)
    subst this
    rfl
  | succ n ih =>
    intro bits hlen
    rw [List.range_succ_eq_map, List.flatMap_cons, List.flatMap_map]
    simp only [Nat.zero_mul, List.drop_zero]
    have hstep : ∀ i : Nat, ((bits.drop ((i + 1) * d)).take d)
        = (((bits.drop d).drop (i * d)).take d) := by
      intro i
      rw [List.drop_drop]
      have : (i + 1) * d = d + i * d := by ring
      rw [this]
    have hcongr : (List.range n).flatMap (fun a => (bits.drop (a.succ * d)).take d)
        = (List.range n).flatMap (fun i => (((bits.drop d).drop (i * d)).take d)) :=
      flatMap_congr (fun i _ => hstep i)
    rw [hcongr, ih (bits.drop d) (by rw [List.length_drop, hlen, Nat.succ_mul]; omega)]
    exact List.take_append_drop d bits

/-- Round trip decode after encode, for every valid coefficient list. -/
lemma byte_decode_byte_encode (d : Nat) (F : List Nat) (hd1 : 1 ≤ d) (hd2 : d ≤ 12)
    (hlen : F.length = 256) (hval : ∀ x ∈ F, x < (if d < 12 then 2 ^ d else 3329)) :
    (byte_encode F d).bind (fun B => byte_decode B d) = some F := by
  have hm2d : (if d < 12 then 2 ^ d else 3329) ≤ 2 ^ d := by
    split
    · exact le_refl _
    · have : d = 12 := by omega
      subst this; norm_num
  have hall : F.all (fun x => decide (x < if d < 12 then 2 ^ d else 3329)) = true := by
    rw [List.all_eq_true]
    intro x hx
    rw [decide_eq_true_eq]
    exact hval x hx
  unfold byte_encode
  rw [if_pos ⟨hd1, hd2⟩, if_pos hlen, if_pos hall, Option.some_bind]
  have hbitlen : (F.flatMap (coeffBits d)).length = 8 * (32 * d) := by
    rw [flatMap_coeffBits_length, hlen]; ring
  have hblen : (bits_to_bytes (F.flatMap (coeffBits d))).length = 32 * d :=
    bits_to_bytes_length (32 * d) _ hbitlen
  unfold byte_decode
  rw [if_pos ⟨hd1, hd2⟩, if_pos hblen]
  rw [bytes_to_bits_bits_to_bytes (32 * d) _ hbitlen (flatMap_coeffBits_lt_two d F)]
  refine congrArg some ?_
  have hpoint : ∀ i ∈ List.range 256,
      bitsVal (((F.flatMap (coeffBits d)).drop (i * d)).take d)
          % (if d < 12 then 2 ^ d else 3329)
        = F.getD i 0 := by
    intro i hi
    rw [List.mem_range] at hi
    rw [flatMap_chunk d F i (by omega), bitsVal_coeffBits]
    have hFi : F.getD i 0 < (if d < 12 then 2 ^ d else 3329) := by
      rw [List.getD_eq_getElem F 0 (by omega)]
      exact hval _ (List.getElem_mem _)
    rw [Nat.mod_eq_of_lt (lt_of_lt_of_le hFi hm2d), Nat.mod_eq_of_lt hFi]
  rw [List.map_congr_left hpoint]
  rw [show (256 : Nat) = F.length from hlen.symm]
  exact range_map_getD F

/-- Round trip encode after decode, for every byte string whose d-bit fields
are in range. -/
lemma byte_encode_byte_decode (d : Nat) (B : List Nat) (hd1 : 1 ≤ d) (hd2 : d ≤ 12)
    (hlen : B.length = 32 * d) (hbyte : ∀ x ∈ B, x < 256)
    (hfields : ∀ i, i < 256 →
      bitsVal (((bytes_to_bits B).drop (i * d)).take d)
        < (if d < 12 then 2 ^ d else 3329)) :
    (byte_decode B d).bind (fun F => byte_encode F d) = some B := by
  have hmpos : 0 < (if d < 12 then 2 ^ d else 3329) := by
    split
    · exact Nat.pos_pow_of_pos d (by omega)
    · norm_num
  unfold byte_decode
  rw [if_pos ⟨hd1, hd2⟩, if_pos hlen, Option.some_bind]
  have hbits_len : (bytes_to_bits B).length = 256 * d := by
    rw [bytes_to_bits_length, hlen]; ring
  have hchunk_len : ∀ i, i < 256 →
      (((bytes_to_bits B).drop (i * d)).take d).length = d := by
    intro i hi
    rw [List.length_take, List.length_drop, hbits_len]
    have : i * d + d ≤ 256 * d := by
      have : (i + 1) * d ≤ 256 * d := Nat.mul_le_mul_right d (by omega)
      calc i * d + d = (i + 1) * d := by ring
        _ ≤ 256 * d := this
    omega
  have hFlen : ((List.range 256).map (fun i =>
      bitsVal (((bytes_to_bits B).drop (i * d)).take d)
        % (if d < 12 then 2 ^ d else 3329))).length = 256 := by
    simp
  have hFval : ∀ x ∈ (List.range 256).map (fun i =>
      bitsVal (((bytes_to_bits B).drop (i * d)).take d)
        % (if d < 12 then 2 ^ d else 3329)),
      x < (if d < 12 then 2 ^ d else 3329) := by
    intro x hx
    rw [List.mem_map] at hx
    obtain ⟨i, _, rfl⟩ := hx
    exact Nat.mod_lt _ hmpos
  have hall : ((List.range 256).map (fun i =>
      bitsVal (((bytes_to_bits B).drop (i * d)).take d)
        % (if d < 12 then 2 ^ d else 3329))).all
        (fun x => decide (x < if d < 12 then 2 ^ d else 3329)) = true := by
    rw [List.all_eq_true]
    intro x hx
    rw [decide_eq_true_eq]
    exact hFval x hx
  unfold byte_encode
  rw [if_pos ⟨hd1, hd2⟩, if_pos hFlen, if_pos hall]
  refine congrArg some ?_
  rw [List.flatMap_map]
  have hpoint : ∀ i ∈ List.range 256,
      coeffBits d (bitsVal (((bytes_to_bits B).drop (i * d)).take d)
          % (if d < 12 then 2 ^ d else 3329))
        = ((bytes_to_bits B).drop (i * d)).take d := by
    intro i hi
    rw [List.mem_range] at hi
    rw [Nat.mod_eq_of_lt (hfields i hi)]
    have hb2 : ∀ b ∈ ((bytes_to_bits B).drop (i * d)).take d, b < 2 := by
      intro b hb
      exact bytes_to_bits_lt_two B b (List.mem_of_mem_drop (List.mem_of_mem_take hb))
    have := coeffBits_bitsVal (((bytes_to_bits B).drop (i * d)).take d) hb2
    rwa [hchunk_len i hi] at this
  rw [flatMap_congr hpoint]
  rw [chunks_join d 256 (bytes_to_bits B) hbits_len]
  exact bits_to_bytes_bytes_to_bits B hbyte

/-! Hash primitives, from utils/hash_utils.py.  The spec treats the SHA-3
family as external oracles, so each primitive is modelled as a function from
the absorbed byte string to its unbounded output stream (position to byte);
fixed-length digests read a prefix of that stream. -/

/-- The four SHA-3 primitives consumed by the core, as output streams. -/
structure Oracles where
  sha3_256 : List Nat → Nat → Nat
  sha3_512 : List Nat → Nat → Nat
  shake128 : List Nat → Nat → Nat
  shake256 : List Nat → Nat → Nat

/-- Hash H(s) = SHA3-256(s), 32 bytes (utils/hash_utils.py). -/
def hashH (O : Oracles) (s : List Nat) : List Nat :=
  (List.range 32).map (O.sha3_256 s)

/-- Hash J(s) = SHAKE256(s, 32) (utils/hash_utils.py). -/
def hashJ (O : Oracles) (s : List Nat) : List Nat :=
  (List.range 32).map (O.shake256 s)

/-- Hash G(c) = SHA3-512(c), 64 bytes (utils/hash_utils.py). -/
def hashG (O : Oracles) (c : List Nat) : List Nat :=
  (List.range 64).map (O.sha3_512 c)

/-- PRF_eta(s, b) = SHAKE256(s || b, 64 eta) with the ValueError guards of
utils/hash_utils.py modelled as `none`. -/
def PRF (O : Oracles) (eta : Nat) (s b : List Nat) : Option (List Nat) :=
  if eta = 2 ∨ eta = 3 then
    if s.length = 32 then
      if b.length = 1 then
        some ((List.range (64 * eta)).map (O.shake256 (s ++ b)))
      else none
    else none
  else none

/-- State of the `XOF` class of utils/hash_utils.py: the hashlib shake object
holds exactly the absorbed input rho || i || j. -/
structure XOFState where
  data : List Nat
deriving DecidableEq

/-- Constructor `XOF.__init__`: validates rho, i, j and absorbs
rho || bytes([i, j]). -/
def XOF_init (rho : List Nat) (i j : Nat) : Option XOFState :=
  if rho.length = 32 then
    if i ≤ 255 then
      if j ≤ 255 then some ⟨rho ++ [i, j]⟩ else none
    else none
  else none

/-- Method `XOF.squeeze(length)`: the source calls `self._shake.digest(length)`,
and a hashlib shake object keeps no output offset, so every call returns the
FIRST `length` bytes of SHAKE-128(data); the state is not advanced. -/
def XOF_squeeze (O : Oracles) (x : XOFState) (length : Nat) : List Nat :=
  (List.range length).map (O.shake128 x.data)

/-- Loop body of `sample_ntt` (utils/poly_utils.py, Algorithm 7): squeeze 3
bytes, take two 12-bit candidates, keep those below q.  The source runs
`while idx < N` with no iteration bound, so the embedding takes fuel and
returns `none` when the loop has not finished within it. -/
def sample_ntt_loop (O : Oracles) (x : XOFState) : List Nat → Nat → Nat → Option (List Nat)
  | _, _, 0 => none
  | a_hat, idx, fuel + 1 =>
    if idx < 256 then
      let C := XOF_squeeze O x 3
      let d1 := C.getD 0 0 + 256 * (C.getD 1 0 % 16)
      let d2 := C.getD 1 0 / 16 + 16 * C.getD 2 0
      let s1 := if d1 < 3329 then (a_hat.set idx d1, idx + 1) else (a_hat, idx)
      let s2 := if d2 < 3329 ∧ s1.2 < 256 then (s1.1.set s1.2 d2, s1.2 + 1) else s1
      sample_ntt_loop O x s2.1 s2.2 fuel
    else some a_hat

/-- Uniform sampler `sample_ntt(B)` (utils/poly_utils.py): 34-byte input
rho || i || j, rejection sampling from the XOF. -/
def sample_ntt (O : Oracles) (B : List Nat) (fuel : Nat) : Option (List Nat) :=
  if B.length = 34 then
    (XOF_init (B.take 32) (B.getD 32 0) (B.getD 33 0)).bind
      (fun x => sample_ntt_loop O x (List.replicate 256 0) 0 fuel)
  else none

/-- Wrapper `sample_uniform_poly(rho, i, j)` = sample_ntt(rho || i || j)
(utils/poly_utils.py). -/
def sample_uniform_poly (O : Oracles) (rho : List Nat) (i j : Nat) (fuel : Nat) :
    Option (List Nat) :=
  sample_ntt O (rho ++ [i, j]) fuel

/-- Centered binomial sampler `sample_poly_cbd(sigma, nonce, eta)`
(utils/poly_utils.py, Algorithm 8): B = PRF_eta(sigma, [nonce]), then
coefficient i is (x - y) mod q with x the sum of bits 2 i eta .. + eta - 1
and y the sum of the next eta bits.  `bytes([nonce])` needs nonce < 256. -/
def sample_poly_cbd (O : Oracles) (sigma : List Nat) (nonce eta : Nat) :
    Option (List Nat) :=
  if eta = 2 ∨ eta = 3 then
    if sigma.length = 32 then
      if nonce < 256 then
        (PRF O eta sigma [nonce]).map (fun B =>
          (List.range 256).map (fun i =>
            (((((List.range eta).map
                  (fun j => (bytes_to_bits B).getD (2 * i * eta + j) 0)).sum : Int)
              - ((((List.range eta).map
                  (fun j => (bytes_to_bits B).getD (2 * i * eta + eta + j) 0)).sum : Int)))
              % 3329).toNat))
      else none
    else none
  else none

/-! Parameter sets, from pke/params.py. -/

/-- An ML-KEM parameter set (class MLKEMParams of pke/params.py; the name and
security category fields carry no semantics and are omitted). -/
structure MLKEMParams where
  k : Nat
  eta1 : Nat
  eta2 : Nat
  du : Nat
  dv : Nat

/-- ML-KEM-512 parameters. -/
def ML_KEM_512 : MLKEMParams := ⟨2, 3, 2, 10, 4⟩

/-- ML-KEM-768 parameters. -/
def ML_KEM_768 : MLKEMParams := ⟨3, 2, 2, 10, 4⟩

/-- ML-KEM-1024 parameters. -/
def ML_KEM_1024 : MLKEMParams := ⟨4, 2, 2, 11, 5⟩

/-- Derived property pk_bytes = 384 k + 32. -/
def pk_bytes (p : MLKEMParams) : Nat := 384 * p.k + 32

/-- Derived property sk_bytes = 768 k + 96. -/
def sk_bytes (p : MLKEMParams) : Nat := 768 * p.k + 96

/-- Derived property ct_bytes = 32 (du k + dv). -/
def ct_bytes (p : MLKEMParams) : Nat := 32 * (p.du * p.k + p.dv)

/-! Polynomial vector helpers used by the PKE layer (utils/poly_utils.py). -/

/-- The all-zero polynomial, `[0] * N` in the source. -/
def zeroPoly : Poly := fun _ => 0

/-- Element access in a list of polynomials (plain list indexing in the
source; indices stay in range there). -/
def getPoly (v : List Poly) (i : Nat) : Poly := v.getD i zeroPoly

/-- Coefficient-wise sum mod q (`add_poly`). -/
def add_poly (a b : Poly) : Poly := fun i => a i + b i

/-- Matrix times vector in the NTT domain (`matrix_vector_mul_ntt` /
`matrix_vector_multiply_ntt`): row i is the sum over j of
multiply_ntts(A[i][j], s[j]). -/
def matrix_vector_mul_ntt (A : List (List Poly)) (s : List Poly) : List Poly :=
  (List.range s.length).map (fun i =>
    (List.range s.length).foldl (fun comp j =>
      add_poly comp (multiply_ntts (getPoly (A.getD i []) j) (getPoly s j))) zeroPoly)

/-- Transposed matrix times vector (`matrix_transpose_vector_multiply_ntt`
in pke/encrypt.py): column j is the sum over i of
multiply_ntts(A[i][j], r1[i]). -/
def matrix_transpose_vector_mul_ntt (A : List (List Poly)) (r1 : List Poly) : List Poly :=
  (List.range r1.length).map (fun j =>
    (List.range r1.length).foldl (fun acc i =>
      add_poly acc (multiply_ntts (getPoly (A.getD i []) j) (getPoly r1 i))) zeroPoly)

/-- Dot product in the NTT domain (`dot_product_ntt`). -/
def dot_product_ntt (t r1 : List Poly) : Poly :=
  (List.range t.length).foldl (fun acc i =>
    add_poly acc (multiply_ntts (getPoly t i) (getPoly r1 i))) zeroPoly

/-! K-PKE key generation, from pke/keygen.py. -/

/-- Seed expansion step of `k_pke_keygen`: `expanded = G(d)`,
`rho = expanded[:32]`, `sigma = expanded[32:64]`.  Note the argument of G is
d alone. -/
def k_pke_keygen_seeds (O : Oracles) (d : List Nat) : List Nat × List Nat :=
  let expanded := hashG O d
  (expanded.take 32, (expanded.drop 32).take 32)

/-- Matrix sampling (`sample_matrix_A`): entry (i, j) from XOF(rho, i, j). -/
def sample_matrix_A (O : Oracles) (rho : List Nat) (k fuel : Nat) :
    Option (List (List (List Nat))) :=
  (List.range k).mapM (fun i =>
    (List.range k).mapM (fun j => sample_uniform_poly O rho i j fuel))

/-- Vector sampling (`sample_secret_vector`): component i from
PRF_eta(sigma, offset + i). -/
def sample_secret_vector (O : Oracles) (sigma : List Nat) (k eta offset : Nat) :
    Option (List (List Nat)) :=
  (List.range k).mapM (fun i => sample_poly_cbd O sigma (offset + i) eta)

/-- Identical loop `sample_error_vector` of pke/keygen.py. -/
def sample_error_vector (O : Oracles) (sigma : List Nat) (k eta offset : Nat) :
    Option (List (List Nat)) :=
  (List.range k).mapM (fun i => sample_poly_cbd O sigma (offset + i) eta)

/-- Public key serializer (`serialize_public_key`): ByteEncode12 of each
polynomial of t_hat, then rho. -/
def serialize_public_key (t_hat : List Poly) (rho : List Nat) : Option (List Nat) :=
  (t_hat.mapM (fun p => byte_encode_12 (listOfPoly p))).map
    (fun bs => bs.flatten ++ rho)

/-- Secret key serializer (`serialize_secret_key`): ByteEncode12 of each
polynomial of the vector it is given (the caller passes the standard-domain
s, see `k_pke_keygen`). -/
def serialize_secret_key (s : List (List Nat)) : Option (List Nat) :=
  (s.mapM byte_encode_12).map List.flatten

/-- K-PKE.KeyGen (`k_pke_keygen`, Algorithm 15 in pke/keygen.py): seeds from
G(d), matrix A from rho, s and e from CBD_eta1 with nonces 0..k-1 and
k..2k-1, t_hat = A s_hat + e_hat; the public key serializes t_hat and the
secret key serializes s as the source passes it (standard domain). -/
def k_pke_keygen (O : Oracles) (d : List Nat) (par : MLKEMParams) (fuel : Nat) :
    Option (List Nat × List Nat) :=
  if d.length = 32 then
    (sample_matrix_A O (k_pke_keygen_seeds O d).1 par.k fuel).bind (fun A =>
    (sample_secret_vector O (k_pke_keygen_seeds O d).2 par.k par.eta1 0).bind (fun s =>
    (sample_error_vector O (k_pke_keygen_seeds O d).2 par.k par.eta1 par.k).bind (fun e =>
      let A_hat := A.map (fun row => row.map polyOfList)
      let s_hat := s.map (fun p => ntt (polyOfList p))
      let e_hat := e.map (fun p => ntt (polyOfList p))
      let t_hat0 := matrix_vector_mul_ntt A_hat s_hat
      let t_hat := (List.range par.k).map (fun i =>
        add_poly (getPoly t_hat0 i) (getPoly e_hat i))
      (serialize_public_key t_hat (k_pke_keygen_seeds O d).1).bind (fun pk =>
      (serialize_secret_key s).bind (fun sk =>
        some (pk, sk))))))
  else none

/-! K-PKE encryption, from pke/encrypt.py. -/

/-- Public key parser (`parse_public_key`): k ByteDecode12 blocks of 384
bytes (kept in the NTT domain), then 32 bytes of rho. -/
def parse_public_key (ek : List Nat) (k : Nat) : Option (List (List Nat) × List Nat) :=
  ((List.range k).mapM (fun i => byte_decode_12 ((ek.drop (384 * i)).take 384))).map
    (fun t => (t, (ek.drop (384 * k)).take 32))

/-- Noise sampling helper of pke/encrypt.py (`sample_error_vector_encrypt`),
which just calls `sample_error_vector` of pke/keygen.py. -/
def sample_error_vector_encrypt (O : Oracles) (r : List Nat) (k eta offset : Nat) :
    Option (List (List Nat)) :=
  sample_error_vector O r k eta offset

/-- Message decompression (`decompress_message`): bit i of m (little-endian
within each byte) scaled by floor(q / 2) = 1664. -/
def decompress_message (m : List Nat) : Poly :=
  fun i => (((bytes_to_bits m).getD i 0 * 1664 : Nat) : Zq)

/-- Coefficient compression of pke/encrypt.py (`compress`):
`round((1 << d) * coeff / Q) % (1 << d)` computed with Python floats.  The
quotient is never a half-integer (that would need q to divide 2^(d+1) c with
0 < c < q) and the float error is far below the distance to the nearest
half-integer, so the call equals exact nearest-integer rounding, here
floor((2^(d+1) c + q) / (2 q)). -/
def compress_poly (w : Poly) (d : Nat) : List Nat :=
  if d = 0 then List.replicate 256 0
  else (List.range 256).map (fun i => (2 ^ (d + 1) * (w i).val + 3329) / (2 * 3329) % 2 ^ d)

/-- Ciphertext serializer (`serialize_ciphertext`): ByteEncode_du of each u
component, then ByteEncode_dv of v. -/
def serialize_ciphertext (u_compressed : List (List Nat)) (v_compressed : List Nat)
    (par : MLKEMParams) : Option (List Nat) :=
  (u_compressed.mapM (fun p => byte_encode p par.du)).bind (fun us =>
    (byte_encode v_compressed par.dv).map (fun vs => us.flatten ++ vs))

/-- K-PKE.Encrypt (`k_pke_encrypt`, Algorithm 16 in pke/encrypt.py).  Note
the nonces and eta values actually passed by the source: r1 from
CBD_eta2 with nonces 0..k-1, the single polynomial r2 (added as e2) from
CBD_eta2 with nonce k, e1 from CBD_eta2 with nonces k..2k-1. -/
def k_pke_encrypt (O : Oracles) (ek m r : List Nat) (par : MLKEMParams) (fuel : Nat) :
    Option (List Nat) :=
  if m.length = 32 then
    if r.length = 32 then
      if ek.length = pk_bytes par then
        (parse_public_key ek par.k).bind (fun tr =>
        (sample_matrix_A O tr.2 par.k fuel).bind (fun A =>
        (sample_error_vector_encrypt O r par.k par.eta2 0).bind (fun r1 =>
        (sample_error_vector_encrypt O r 1 par.eta2 par.k).bind (fun r2v =>
          let r2 := r2v.getD 0 []
          let t_hat := tr.1.map polyOfList
          let A_hat := A.map (fun row => row.map polyOfList)
          let r1_hat := r1.map (fun p => ntt (polyOfList p))
          let u_hat0 := matrix_transpose_vector_mul_ntt A_hat r1_hat
          (sample_error_vector_encrypt O r par.k par.eta2 par.k).bind (fun e1 =>
            let e1_hat := e1.map (fun p => ntt (polyOfList p))
            let u_hat := (List.range par.k).map (fun i =>
              add_poly (getPoly u_hat0 i) (getPoly e1_hat i))
            let u := u_hat.map ntt_inverse
            let v_ntt := dot_product_ntt t_hat r1_hat
            let v0 := ntt_inverse v_ntt
            let v1 := add_poly v0 (polyOfList r2)
            let v2 := add_poly v1 (decompress_message m)
            let u_compressed := u.map (fun p => compress_poly p par.du)
            let v_compressed := compress_poly v2 par.dv
            serialize_ciphertext u_compressed v_compressed par)))))
      else none
    else none
  else none

/-! K-PKE decryption, from pke/decrypt.py. -/

/-- Secret key parser (`parse_secret_key`): k ByteDecode12 blocks. -/
def parse_secret_key (dk_pke : List Nat) (k : Nat) : Option (List (List Nat)) :=
  (List.range k).mapM (fun i => byte_decode_12 ((dk_pke.drop (384 * i)).take 384))

/-- Ciphertext parser (`parse_ciphertext`): k blocks of 32 du bytes for u,
then 32 dv bytes for v. -/
def parse_ciphertext (c : List Nat) (par : MLKEMParams) :
    Option (List (List Nat) × List Nat) :=
  ((List.range par.k).mapM (fun i =>
      byte_decode ((c.drop (32 * par.du * i)).take (32 * par.du)) par.du)).bind
    (fun u => (byte_decode ((c.drop (32 * par.du * par.k)).take (32 * par.dv)) par.dv).map
      (fun v => (u, v)))

/-- Result of `round(x)` on an exact dyadic rational num / den, den a power
of two: Python floats represent the quotient exactly and round() rounds
half to even. -/
def pyRoundDiv (num den : Nat) : Nat :=
  let q := num / den
  let r := num % den
  if 2 * r < den then q
  else if 2 * r > den then q + 1
  else if q % 2 = 0 then q else q + 1

/-- Coefficient decompression of pke/decrypt.py (`decompress`):
`round(Q * coeff / (1 << d)) % Q` with Python float round (exact dyadic
value, half rounded to even). -/
def decompress_poly (c : List Nat) (d : Nat) : Poly :=
  if d = 0 then zeroPoly
  else fun i => ((pyRoundDiv (3329 * c.getD i 0) (2 ^ d) % 3329 : Nat) : Zq)

/-- Message recovery (`compress_to_message` in pke/decrypt.py): bit i is 1
exactly when 832 < w[i] < 2496 (the source compares against q // 4 and
3 * (q // 4)); bits are packed little-endian with `byte_val |= 1 << j`. -/
def compress_to_message (w : Poly) : List Nat :=
  let bits := (List.range 256).map (fun i =>
    if 832 < (w i).val ∧ (w i).val < 2496 then 1 else 0)
  (List.range 32).map (fun i =>
    (List.range 8).foldl (fun v j =>
      if bits.getD (8 * i + j) 0 = 1 then v ||| (1 <<< j) else v) 0)

/-- K-PKE.Decrypt (`k_pke_decrypt`, Algorithm 17 in pke/decrypt.py). -/
def k_pke_decrypt (dk_pke c : List Nat) (par : MLKEMParams) : Option (List Nat) :=
  if dk_pke.length = 384 * par.k then
    if c.length = ct_bytes par then
      (parse_secret_key dk_pke par.k).bind (fun s =>
      (parse_ciphertext c par).bind (fun uv =>
        let u := uv.1.map (fun p => decompress_poly p par.du)
        let v := decompress_poly uv.2 par.dv
        let s_hat := s.map (fun p => ntt (polyOfList p))
        let u_hat := u.map ntt
        let su_ntt := dot_product_ntt s_hat u_hat
        let su := ntt_inverse su_ntt
        let w := fun i => v i - su i
        some (compress_to_message w)))
    else none
  else none

/-! ML-KEM decapsulation, from kem/decaps.py and kem/keygen.py. -/

/-- Decapsulation key parser (`parse_decapsulation_key` in kem/keygen.py):
dk = dk_PKE || ek_PKE || H(ek_PKE) || z. -/
def parse_decapsulation_key (dk : List Nat) (par : MLKEMParams) :
    Option (List Nat × List Nat × List Nat × List Nat) :=
  if dk.length = sk_bytes par then
    some (dk.take (384 * par.k),
      (dk.drop (384 * par.k)).take (pk_bytes par),
      (dk.drop (384 * par.k + pk_bytes par)).take 32,
      (dk.drop (384 * par.k + pk_bytes par + 32)).take 32)
  else none

/-- Constant time comparison (`constant_time_compare` in kem/decaps.py):
equal lengths, then the OR of all byte XORs must be zero. -/
def constant_time_compare (a b : List Nat) : Bool :=
  if a.length = b.length then
    (((a.zip b).map (fun p => p.1 ^^^ p.2)).foldl (fun acc x => acc ||| x) 0) == 0
  else false

/-- ML-KEM.Decaps (`ml_kem_decaps`, Algorithm 20 in kem/decaps.py): decrypt,
derive (K1, r1) = G(m1 || h), re-encrypt, and return K1 on match, otherwise
the implicit rejection value J(z || c). -/
def ml_kem_decaps (O : Oracles) (dk c : List Nat) (par : MLKEMParams) (fuel : Nat) :
    Option (List Nat) :=
  if dk.length = sk_bytes par then
    if c.length = ct_bytes par then
      (parse_decapsulation_key dk par).bind (fun dkp =>
        (k_pke_decrypt dkp.1 c par).bind (fun m1 =>
          (k_pke_encrypt O dkp.2.1 m1
              (((hashG O (m1 ++ dkp.2.2.1)).drop 32).take 32) par fuel).map (fun c1 =>
            if constant_time_compare c c1 then (hashG O (m1 ++ dkp.2.2.1)).take 32
            else hashJ O (dkp.2.2.2 ++ c))))
    else none
  else none

/-! Claim-side definitions: renderings of spec sentences that the code is
compared against. -/

/-- Seed derivation as claimed (FIPS 203 K-PKE.KeyGen step 1): G applied to
d || [k], halves as rho and sigma. -/
def k_pke_keygen_seeds_claim (O : Oracles) (d : List Nat) (k : Nat) : List Nat × List Nat :=
  let expanded := hashG O (d ++ [k])
  (expanded.take 32, (expanded.drop 32).take 32)

/-- Message recovery as claimed: Compress_1 coefficient-wise, bit i equal to
((2 w[i] + 1664) div 3329) mod 2, packed little-endian within each byte. -/
def compress_to_message_claim (w : Poly) : List Nat :=
  let bits := (List.range 256).map (fun i => (2 * (w i).val + 1664) / 3329 % 2)
  (List.range 32).map (fun i =>
    ((List.range 8).map (fun j => bits.getD (8 * i + j) 0 * 2 ^ j)).sum)

/-- Behaviour of ML-KEM.Decaps as claimed: for dk of length 768 k + 96 and c
of length 32 (du k + dv), parse dk as dk_PKE || ek_PKE || h || z at those
offsets, decrypt to m1, split G(m1 || h) into K1 and r1, re-encrypt, and
return K1 when c equals the re-encryption, else J(z || c). -/
def ml_kem_decaps_claim (O : Oracles) (dk c : List Nat) (par : MLKEMParams)
    (fuel : Nat) : Option (List Nat) :=
  if dk.length = 768 * par.k + 96 ∧ c.length = 32 * (par.du * par.k + par.dv) then
    (k_pke_decrypt (dk.take (384 * par.k)) c par).bind (fun m1 =>
      (k_pke_encrypt O ((dk.drop (384 * par.k)).take (384 * par.k + 32)) m1
          (((hashG O (m1 ++ (dk.drop (768 * par.k + 32)).take 32)).drop 32).take 32)
          par fuel).map (fun c1 =>
        if c = c1 then (hashG O (m1 ++ (dk.drop (768 * par.k + 32)).take 32)).take 32
        else hashJ O ((dk.drop (768 * par.k + 64)).take 32 ++ c)))
  else none

/-! Claim C1. -/

/-- A bitwise OR of naturals is zero iff both operands are zero. -/
lemma or_eq_zero_iff_both (a b : Nat) : a ||| b = 0 ↔ a = 0 ∧ b = 0 := by
  constructor
  · intro h
    have hb : ∀ i, Nat.testBit a i = false ∧ Nat.testBit b i = false := by
      intro i
      have := congrArg (fun n => Nat.testBit n i) h
      simpa [Nat.testBit_or] using this
    constructor
    · exact Nat.eq_of_testBit_eq (fun i => by simp [(hb i).1])
    · exact Nat.eq_of_testBit_eq (fun i => by simp [(hb i).2])
  · rintro ⟨rfl, rfl⟩
    rfl

/-- Folding OR over a list is zero iff the accumulator and all elements are. -/
lemma foldl_or_eq_zero (l : List Nat) :
    ∀ acc, l.foldl (fun a x => a ||| x) acc = 0 ↔ acc = 0 ∧ ∀ x ∈ l, x = 0 := by
  induction l with
  | nil => intro acc; simp
  | cons y l ih =>
    intro acc
    simp only [List.foldl_cons, ih, or_eq_zero_iff_both, List.mem_cons]
    constructor
    · rintro ⟨⟨ha, hy⟩, hl⟩
      exact ⟨ha, fun x hx => hx.elim (fun h => h ▸ hy) (hl x)⟩
    · rintro ⟨ha, h⟩
      exact ⟨⟨ha, h y (Or.inl rfl)⟩, fun x hx => h x (Or.inr hx)⟩

/-- All pairwise XORs of two equal-length lists vanish iff the lists agree. -/
lemma zip_xor_zero (a : List Nat) : ∀ b : List Nat, a.length = b.length →
    ((∀ x ∈ (a.zip b).map (fun p => p.1 ^^^ p.2), x = 0) ↔ a = b) := by
  induction a with
  | nil =>
    intro b hlen
    cases b with
    | nil => simp
    | cons y bs => simp at hlen
  | cons x as ih =>
    intro b hlen
    cases b with
    | nil => simp at hlen
    | cons y bs =>
      simp only [List.zip_cons_cons, List.map_cons, List.mem_cons, List.cons.injEq]
      constructor
      · intro h
        have hxy : x = y := Nat.xor_eq_zero.mp (h _ (Or.inl rfl))
        exact ⟨hxy, (ih bs (by simpa using hlen)).mp (fun z hz => h z (Or.inr hz))⟩
      · rintro ⟨rfl, rfl⟩
        intro z hz
        rcases hz with h | h
        · simp [h]
        · exact (ih as rfl).mpr rfl z h

/-- The constant-time comparison in kem/decaps.py decides list equality. -/
lemma constant_time_compare_iff (a b : List Nat) :
    constant_time_compare a b = true ↔ a = b := by
  unfold constant_time_compare
  by_cases h : a.length = b.length
  · rw [if_pos h]
    simp only [beq_iff_eq, foldl_or_eq_zero]
    constructor
    · rintro ⟨_, h2⟩
      exact (zip_xor_zero a b h).mp h2
    · intro he
      exact ⟨trivial, (zip_xor_zero a b h).mpr he⟩
  · rw [if_neg h]
    constructor
    · intro hc
      exact absurd hc Bool.false_ne_true
    · intro he
      exact absurd (congrArg List.length he) h

/-- Claim C1 (confirmed): for every decapsulation key of length 768 k + 96 and
ciphertext of length 32 (du k + dv), ml_kem_decaps parses dk as
dk_PKE || ek_PKE || h || z at those offsets, decrypts c to m1, splits
G(m1 || h) into K1 and r1, re-encrypts m1 under r1, and returns K1 exactly
when c equals the re-encryption and J(z || c) otherwise; on any other input
lengths it rejects.  Stated as an unconditional refinement of the spec-side
rendering ml_kem_decaps_claim. -/
theorem C1_decaps_fo_with_implicit_rejection (O : Oracles) (dk c : List Nat)
    (par : MLKEMParams) (fuel : Nat) :
    ml_kem_decaps O dk c par fuel = ml_kem_decaps_claim O dk c par fuel := by
  unfold ml_kem_decaps ml_kem_decaps_claim parse_decapsulation_key sk_bytes ct_bytes pk_bytes
  by_cases hdk : dk.length = 768 * par.k + 96
  · by_cases hc : c.length = 32 * (par.du * par.k + par.dv)
    · rw [if_pos hdk, if_pos hc, if_pos hdk, if_pos ⟨hdk, hc⟩]
      simp only [Option.some_bind]
      simp only [show 384 * par.k + (384 * par.k + 32) = 768 * par.k + 32 from by ring,
        show 384 * par.k + (384 * par.k + 32) + 32 = 768 * par.k + 64 from by ring]
      apply congrArg
      funext m1
      apply congrArg₂ _ _ rfl
      funext c1
      by_cases hcc : c = c1
      · rw [if_pos (constant_time_compare_iff c c1 |>.mpr hcc), if_pos hcc]
      · rw [if_neg (fun h => hcc ((constant_time_compare_iff c c1).mp h)), if_neg hcc]
    · rw [if_pos hdk, if_neg hc, if_neg (fun h => hc h.2)]
  · rw [if_neg hdk, if_neg (fun h => hdk h.1)]

/-! Claim C2. -/

/-- Claim C2 (code bug): the XOF squeeze must walk forward through the
SHAKE-128 stream, but `digest(length)` on a hashlib shake object always
returns the first `length` bytes, so two consecutive squeeze(3) calls both
return bytes 0..2 and their concatenation is not the first two 3-byte
slices of the stream.  The stream here returns byte n at position n, making
the failure visible. -/
theorem C2_xof_squeeze_does_not_advance :
    XOF_squeeze ⟨fun _ _ => 0, fun _ _ => 0, fun _ n => n, fun _ _ => 0⟩
        ⟨List.replicate 32 0 ++ [0, 0]⟩ 3 = [0, 1, 2] ∧
    XOF_squeeze ⟨fun _ _ => 0, fun _ _ => 0, fun _ n => n, fun _ _ => 0⟩
          ⟨List.replicate 32 0 ++ [0, 0]⟩ 3 ++
        XOF_squeeze ⟨fun _ _ => 0, fun _ _ => 0, fun _ n => n, fun _ _ => 0⟩
          ⟨List.replicate 32 0 ++ [0, 0]⟩ 3 = [0, 1, 2, 0, 1, 2] ∧
    (List.range 6).map ((fun (_ : List Nat) (n : Nat) => n)
        (List.replicate 32 (0 : Nat) ++ [0, 0])) = [0, 1, 2, 3, 4, 5] ∧
    [0, 1, 2, 0, 1, 2] ≠ [0, 1, 2, 3, 4, 5] := by decide

/-! Claim C3. -/

/-- If the first three stream bytes reject both 12-bit candidates, the
rejection loop makes no progress (the squeeze re-reads the same bytes) and
never terminates, whatever the fuel. -/
lemma sample_ntt_loop_stuck (O : Oracles) (x : XOFState)
    (h1 : 3329 ≤ O.shake128 x.data 0 + 256 * (O.shake128 x.data 1 % 16))
    (h2 : 3329 ≤ O.shake128 x.data 1 / 16 + 16 * O.shake128 x.data 2) :
    ∀ fuel a idx, idx < 256 → sample_ntt_loop O x a idx fuel = none := by
  intro fuel
  induction fuel with
  | zero => intro a idx _; rfl
  | succ fuel ih =>
    intro a idx hidx
    show (if idx < 256 then _ else some a) = none
    rw [if_pos hidx]
    have hC : XOF_squeeze O x 3
        = [O.shake128 x.data 0, O.shake128 x.data 1, O.shake128 x.data 2] := rfl
    simp only [hC, List.getD_cons_zero, List.getD_cons_succ]
    rw [if_neg (by omega)]
    rw [if_neg (by intro hcon; omega)]
    exact ih a idx hidx

/-- Claim C3 (code bug): sample_ntt does not terminate for every stream.
The stream used here returns 73, 223, 217 as its first three bytes: these
are the actual first three bytes of SHAKE-128 of the all-zero 34-byte
input, and they give d1 = 3913 and d2 = 3485, both rejected, so the real
program loops forever on B = 0^32 || 0 || 0. -/
theorem C3_sample_ntt_nonterminating : ∀ fuel,
    sample_ntt ⟨fun _ _ => 0, fun _ _ => 0, fun _ n => [73, 223, 217].getD n 0,
        fun _ _ => 0⟩
      (List.replicate 34 0) fuel = none := by
  intro fuel
  unfold sample_ntt
  rw [if_pos (by decide)]
  have hinit : XOF_init ((List.replicate 34 (0 : Nat)).take 32)
      ((List.replicate 34 (0 : Nat)).getD 32 0) ((List.replicate 34 (0 : Nat)).getD 33 0)
      = some ⟨(List.replicate 34 (0 : Nat)).take 32 ++
          [(List.replicate 34 (0 : Nat)).getD 32 0,
           (List.replicate 34 (0 : Nat)).getD 33 0]⟩ := by decide
  rw [hinit, Option.some_bind]
  exact sample_ntt_loop_stuck _ _ (by decide) (by decide) fuel _ 0 (by omega)

/-! Claim C4. -/

/-- Claim C4 (code bug): K-PKE.KeyGen must derive (rho, sigma) from
G(d || [k]) per FIPS 203, but `k_pke_keygen` computes G(d) with no k byte,
so the derived seeds differ whenever the oracle distinguishes the two
inputs (here SHA3-512 is instantiated with a stream that depends on the
input length, and k = 2 is the ML-KEM-512 value). -/
theorem C4_keygen_seed_derivation_wrong_input :
    k_pke_keygen_seeds ⟨fun _ _ => 0, fun s _ => s.length, fun _ _ => 0, fun _ _ => 0⟩
        (List.replicate 32 0)
      ≠ k_pke_keygen_seeds_claim
          ⟨fun _ _ => 0, fun s _ => s.length, fun _ _ => 0, fun _ _ => 0⟩
          (List.replicate 32 0) ML_KEM_512.k := by decide

/-! Claim C5. -/

/-- Claim C5 (code bug): in K-PKE.Encrypt the source samples r1 with eta2
(not eta1) and e2 with nonce k (not 2 k).  With the ML-KEM-512 parameters
(eta1 = 3, eta2 = 2) and a SHAKE-256 stream whose first output byte is 12
for nonces 0 and 2 and 0 otherwise, the r1 actually sampled differs from
the claimed r1, and the e2 actually sampled (nonce k = 2) differs from the
claimed e2 (nonce 2 k = 4). -/
theorem C5_encrypt_noise_sampling_wrong :
    (sample_error_vector_encrypt
        ⟨fun _ _ => 0, fun _ _ => 0, fun _ _ => 0,
         fun s n => if n = 0 ∧ (s.getD 32 0 = 0 ∨ s.getD 32 0 = 2) then 12 else 0⟩
        (List.replicate 32 0) ML_KEM_512.k ML_KEM_512.eta2 0
      ≠ (List.range ML_KEM_512.k).mapM (fun i =>
          sample_poly_cbd
            ⟨fun _ _ => 0, fun _ _ => 0, fun _ _ => 0,
             fun s n => if n = 0 ∧ (s.getD 32 0 = 0 ∨ s.getD 32 0 = 2) then 12 else 0⟩
            (List.replicate 32 0) i ML_KEM_512.eta1)) ∧
    ((sample_error_vector_encrypt
        ⟨fun _ _ => 0, fun _ _ => 0, fun _ _ => 0,
         fun s n => if n = 0 ∧ (s.getD 32 0 = 0 ∨ s.getD 32 0 = 2) then 12 else 0⟩
        (List.replicate 32 0) 1 ML_KEM_512.eta2 ML_KEM_512.k).map (fun v => v.getD 0 [])
      ≠ sample_poly_cbd
          ⟨fun _ _ => 0, fun _ _ => 0, fun _ _ => 0,
           fun s n => if n = 0 ∧ (s.getD 32 0 = 0 ∨ s.getD 32 0 = 2) then 12 else 0⟩
          (List.replicate 32 0) (2 * ML_KEM_512.k) ML_KEM_512.eta2) := by decide

/-! Claim C7. -/

/-- Claim C7 (code bug): the message bit of K-PKE.Decrypt must be
Compress_1, which maps w = 2496 to bit 1 (since (2 * 2496 + 1664) / 3329
is 1), but `compress_to_message` tests 832 < w < 2496 and so maps 2496 to
bit 0. -/
theorem C7_compress_to_message_boundary :
    (compress_to_message (fun i => if i = 0 then (2496 : Zq) else 0)).getD 0 0 = 0 ∧
    (compress_to_message_claim (fun i => if i = 0 then (2496 : Zq) else 0)).getD 0 0 = 1 ∧
    compress_to_message (fun i => if i = 0 then (2496 : Zq) else 0)
      ≠ compress_to_message_claim (fun i => if i = 0 then (2496 : Zq) else 0) := by decide

/-! Claim C8. -/

/-- Claim C8 (confirmed): the inverse NTT undoes the forward NTT on every
polynomial of 256 residues mod q, with the precomputed twiddle tables and
the final multiplication by 3303. -/
theorem C8_ntt_inverse_ntt (f : Poly) (i : Nat) (hi : i < 256) :
    ntt_inverse (ntt f) i = f i :=
  ntt_inverse_ntt f i hi

/-- Witness for C8 at the zero polynomial and index 0. -/
theorem C8_ntt_inverse_ntt_witness :
    ntt_inverse (ntt (fun _ => (0 : Zq))) 0 = (fun _ => (0 : Zq)) 0 :=
  C8_ntt_inverse_ntt (fun _ => (0 : Zq)) 0 (by decide)

/-! Claim C9. -/

/-- Claim C9 (confirmed): the byte codec round-trips both ways for every
d in [1, 12]: decoding after encoding returns every coefficient list with
entries below m (m = 2^d for d < 12, m = q for d = 12), and encoding after
decoding returns every 32 d byte string whose 256 d-bit fields are below
m. -/
theorem C9_byte_codec_roundtrip (d : Nat) (F B : List Nat)
    (hd1 : 1 ≤ d) (hd2 : d ≤ 12)
    (hF1 : F.length = 256) (hF2 : ∀ x ∈ F, x < (if d < 12 then 2 ^ d else 3329))
    (hB1 : B.length = 32 * d) (hB2 : ∀ x ∈ B, x < 256)
    (hB3 : ∀ i, i < 256 → bitsVal (((bytes_to_bits B).drop (i * d)).take d)
      < (if d < 12 then 2 ^ d else 3329)) :
    (byte_encode F d).bind (fun bs => byte_decode bs d) = some F ∧
    (byte_decode B d).bind (fun fs => byte_encode fs d) = some B :=
  ⟨byte_decode_byte_encode d F hd1 hd2 hF1 hF2,
   byte_encode_byte_decode d B hd1 hd2 hB1 hB2 hB3⟩

set_option maxRecDepth 40000 in
/-- Witness for C9 at d = 1 on the zero coefficient list and the zero byte
string. -/
theorem C9_byte_codec_roundtrip_witness :
    (byte_encode (List.replicate 256 0) 1).bind (fun bs => byte_decode bs 1)
        = some (List.replicate 256 0) ∧
    (byte_decode (List.replicate 32 0) 1).bind (fun fs => byte_encode fs 1)
        = some (List.replicate 32 0) :=
  C9_byte_codec_roundtrip 1 (List.replicate 256 0) (List.replicate 32 0)
    (by decide) (by decide) (by decide) (by decide) (by decide) (by decide) (by decide)

/-! Claim C10. -/

/-- Sum of a list of bits is at most its length. -/
lemma sum_le_length_of_bits : ∀ l : List Nat, (∀ b ∈ l, b < 2) → l.sum ≤ l.length := by
  intro l
  induction l with
  | nil => intro _; simp
  | cons b t ih =>
    intro h
    have hb : b < 2 := h b (by simp)
    have := ih (fun x hx => h x (by simp [hx]))
    simp only [List.sum_cons, List.length_cons]
    omega

/-- Every getD read from an unpacked bit string is below 2. -/
lemma bytes_to_bits_getD_lt_two (B : List Nat) (idx : Nat) :
    (bytes_to_bits B).getD idx 0 < 2 := by
  by_cases h : idx < (bytes_to_bits B).length
  · rw [List.getD_eq_getElem _ _ h]
    exact bytes_to_bits_lt_two B _ (List.getElem_mem h)
  · rw [List.getD_eq_default _ _ (by omega)]
    omega

/-- Claim C10 (confirmed): for every SHAKE-256 oracle, 32-byte sigma, nonce
byte and eta in {2, 3}, sample_poly_cbd yields exactly 256 coefficients,
each in {0, ..., eta} or {q - eta, ..., q - 1}. -/
theorem C10_sample_poly_cbd_range (O : Oracles) (sigma : List Nat) (nonce eta : Nat)
    (h1 : eta = 2 ∨ eta = 3) (h2 : sigma.length = 32) (h3 : nonce < 256) :
    ((sample_poly_cbd O sigma nonce eta).getD []).length = 256 ∧
    ∀ c ∈ (sample_poly_cbd O sigma nonce eta).getD [],
      c ≤ eta ∨ (3329 - eta ≤ c ∧ c < 3329) := by
  have hb : ([nonce] : List Nat).length = 1 := rfl
  unfold sample_poly_cbd PRF
  rw [if_pos h1, if_pos h2, if_pos h3, if_pos h1, if_pos h2, if_pos hb]
  simp only [Option.map_some', Option.getD_some]
  constructor
  · simp
  · intro c hc
    rw [List.mem_map] at hc
    obtain ⟨i, _, rfl⟩ := hc
    set B := (List.range (64 * eta)).map (O.shake256 (sigma ++ [nonce])) with hB
    have hx : ((List.range eta).map
        (fun j => (bytes_to_bits B).getD (2 * i * eta + j) 0)).sum ≤ eta := by
      have := sum_le_length_of_bits
        ((List.range eta).map (fun j => (bytes_to_bits B).getD (2 * i * eta + j) 0))
        (by intro b hbm
            rw [List.mem_map] at hbm
            obtain ⟨j, _, rfl⟩ := hbm
            exact bytes_to_bits_getD_lt_two B _)
      simpa using this
    have hy : ((List.range eta).map
        (fun j => (bytes_to_bits B).getD (2 * i * eta + eta + j) 0)).sum ≤ eta := by
      have := sum_le_length_of_bits
        ((List.range eta).map (fun j => (bytes_to_bits B).getD (2 * i * eta + eta + j) 0))
        (by intro b hbm
            rw [List.mem_map] at hbm
            obtain ⟨j, _, rfl⟩ := hbm
            exact bytes_to_bits_getD_lt_two B _)
      simpa using this
    have heta : eta ≤ 3 := by omega
    omega

/-- Witness for C10 with a zero oracle, zero sigma, nonce 0 and eta 2. -/
theorem C10_sample_poly_cbd_range_witness :
    ((sample_poly_cbd ⟨fun _ _ => 0, fun _ _ => 0, fun _ _ => 0, fun _ _ => 0⟩
        (List.replicate 32 0) 0 2).getD []).length = 256 ∧
    ∀ c ∈ (sample_poly_cbd ⟨fun _ _ => 0, fun _ _ => 0, fun _ _ => 0, fun _ _ => 0⟩
        (List.replicate 32 0) 0 2).getD [],
      c ≤ 2 ∨ (3329 - 2 ≤ c ∧ c < 3329) :=
  C10_sample_poly_cbd_range ⟨fun _ _ => 0, fun _ _ => 0, fun _ _ => 0, fun _ _ => 0⟩
    (List.replicate 32 0) 0 2 (Or.inl rfl) (by decide) (by decide)

/-! Claim C6. -/

lemma byte_encode_12_listOfPoly (p : Poly) :
    ∃ bs, byte_encode_12 (listOfPoly p) = some bs := by
  unfold byte_encode_12 byte_encode
  rw [if_pos (by norm_num : (1 : Nat) ≤ 12 ∧ (12 : Nat) ≤ 12)]
  rw [if_pos (by simp [listOfPoly] : (listOfPoly p).length = 256)]
  rw [if_pos ?hall]
  case hall =>
    rw [List.all_eq_true]
    intro x hx
    rw [decide_eq_true_eq]
    unfold listOfPoly at hx
    rw [List.mem_map] at hx
    obtain ⟨i, _, rfl⟩ := hx
    have := ZMod.val_lt (p i)
    simpa using this
  exact ⟨_, rfl⟩

lemma serialize_public_key_isSome (t : List Poly) (rho : List Nat) :
    ∃ pk, serialize_public_key t rho = some pk := by
  unfold serialize_public_key
  suffices h : ∃ bs, t.mapM (fun p => byte_encode_12 (listOfPoly p)) = some bs by
    obtain ⟨bs, hbs⟩ := h
    exact ⟨_, by rw [hbs]; rfl⟩
  induction t with
  | nil => exact ⟨[], rfl⟩
  | cons p t ih =>
    obtain ⟨b, hb⟩ := byte_encode_12_listOfPoly p
    obtain ⟨bs, hbs⟩ := ih
    refine ⟨b :: bs, ?_⟩
    rw [List.mapM_cons, hb, hbs]
    rfl

/-- What k_pke_keygen returns as the secret key: the serialization of the
sampled standard-domain vector s, independent of the public key path. -/
lemma k_pke_keygen_sk_eq (O : Oracles) (d : List Nat) (par : MLKEMParams) (fuel : Nat)
    (hd : d.length = 32) :
    (k_pke_keygen O d par fuel).map Prod.snd
      = (sample_matrix_A O (k_pke_keygen_seeds O d).1 par.k fuel).bind (fun _ =>
        (sample_secret_vector O (k_pke_keygen_seeds O d).2 par.k par.eta1 0).bind (fun s =>
        (sample_error_vector O (k_pke_keygen_seeds O d).2 par.k par.eta1 par.k).bind (fun _ =>
          serialize_secret_key s))) := by
  unfold k_pke_keygen
  rw [if_pos hd]
  cases hA : sample_matrix_A O (k_pke_keygen_seeds O d).1 par.k fuel with
  | none => rfl
  | some A =>
    simp only [Option.some_bind]
    cases hs : sample_secret_vector O (k_pke_keygen_seeds O d).2 par.k par.eta1 0 with
    | none => rfl
    | some s =>
      simp only [Option.some_bind]
      cases he : sample_error_vector O (k_pke_keygen_seeds O d).2 par.k par.eta1 par.k with
      | none => rfl
      | some e =>
        simp only [Option.some_bind]
        obtain ⟨pk, hpk⟩ := serialize_public_key_isSome
          ((List.range par.k).map (fun i =>
            add_poly
              (getPoly (matrix_vector_mul_ntt (A.map (fun row => row.map polyOfList))
                (s.map (fun p => ntt (polyOfList p)))) i)
              (getPoly (e.map (fun p => ntt (polyOfList p))) i)))
          (k_pke_keygen_seeds O d).1
        rw [hpk]
        simp only [Option.some_bind]
        cases hsk : serialize_secret_key s with
        | none => rfl
        | some sk => rfl

/-- What k_pke_keygen actually serializes: the secret key it returns is the
ByteEncode12 serialization of the STANDARD-domain sampled vector s, with no
NTT applied — contrary to the FIPS 203 layout dk_PKE = ByteEncode12(s_hat). -/
theorem keygen_sk_standard_domain (O : Oracles) (d : List Nat) (par : MLKEMParams)
    (fuel : Nat) (hd : d.length = 32) :
    (k_pke_keygen O d par fuel).map Prod.snd
      = (sample_matrix_A O (k_pke_keygen_seeds O d).1 par.k fuel).bind (fun _ =>
        (sample_secret_vector O (k_pke_keygen_seeds O d).2 par.k par.eta1 0).bind (fun s =>
        (sample_error_vector O (k_pke_keygen_seeds O d).2 par.k par.eta1 par.k).bind (fun _ =>
          serialize_secret_key s))) :=
  k_pke_keygen_sk_eq O d par fuel hd

/-- Concrete oracle used to exhibit the C6 bug: the SHAKE-256 stream
returns 1 as the first PRF output byte for nonce 0 and 0 everywhere else,
so s = ((1, 0, ..., 0), (0, ..., 0)) under ML-KEM-512. -/
def OC6 : Oracles :=
  ⟨fun _ _ => 0, fun _ _ => 0, fun _ _ => 0,
   fun s n => if n = 0 ∧ s.getD 32 0 = 0 then 1 else 0⟩

/-- keygen_sk_standard_domain instantiated at a concrete oracle, seed and
parameter set. -/
theorem keygen_sk_standard_domain_example :
    (k_pke_keygen OC6 (List.replicate 32 0) ML_KEM_512 200).map Prod.snd
      = (sample_matrix_A OC6
          (k_pke_keygen_seeds OC6 (List.replicate 32 0)).1 ML_KEM_512.k 200).bind (fun _ =>
        (sample_secret_vector OC6
          (k_pke_keygen_seeds OC6 (List.replicate 32 0)).2
          ML_KEM_512.k ML_KEM_512.eta1 0).bind (fun s =>
        (sample_error_vector OC6
          (k_pke_keygen_seeds OC6 (List.replicate 32 0)).2
          ML_KEM_512.k ML_KEM_512.eta1 ML_KEM_512.k).bind (fun _ =>
          serialize_secret_key s))) :=
  keygen_sk_standard_domain OC6 (List.replicate 32 0) ML_KEM_512 200 (by decide)

lemma getD_replicate_zero : ∀ (m idx : Nat), (List.replicate m (0 : Nat)).getD idx 0 = 0 := by
  intro m
  induction m with
  | zero => intro idx; cases idx <;> rfl
  | succ m ih =>
    intro idx
    cases idx with
    | zero => rfl
    | succ idx =>
      rw [List.replicate_succ, List.getD_cons_succ]
      exact ih idx

lemma getD_one_cons_replicate (m idx : Nat) :
    (1 :: List.replicate m (0 : Nat)).getD idx 0 = if idx = 0 then 1 else 0 := by
  cases idx with
  | zero => rfl
  | succ idx => simp [List.getD_cons_succ, getD_replicate_zero]

set_option maxRecDepth 100000 in
/-- The coefficients sample_poly_cbd computes for eta = 3 when bit 0 of the
PRF output is 1 and every other bit is 0. -/
lemma cbd_body_delta (B : List Nat)
    (hB : ∀ idx, (bytes_to_bits B).getD idx 0 = if idx = 0 then 1 else 0) :
    (List.range 256).map (fun i =>
      (((((List.range 3).map
            (fun j => (bytes_to_bits B).getD (2 * i * 3 + j) 0)).sum : Int)
        - ((((List.range 3).map
            (fun j => (bytes_to_bits B).getD (2 * i * 3 + 3 + j) 0)).sum : Int)))
        % 3329).toNat)
      = 1 :: List.replicate 255 0 := by
  have hpt : ∀ i ∈ List.range 256,
      (((((List.range 3).map
            (fun j => (bytes_to_bits B).getD (2 * i * 3 + j) 0)).sum : Int)
        - ((((List.range 3).map
            (fun j => (bytes_to_bits B).getD (2 * i * 3 + 3 + j) 0)).sum : Int)))
        % 3329).toNat
        = (fun i => if i = 0 then 1 else 0) i := by
    intro i _
    by_cases h0 : i = 0
    · subst h0
      simp only [hB]
      decide
    · simp only [hB]
      have e1 : (List.range 3).map (fun j => if 2 * i * 3 + j = 0 then 1 else 0)
          = (List.range 3).map (fun _ => (0 : Nat)) :=
        List.map_congr_left (by intro j _; rw [if_neg (by omega)])
      have e2 : (List.range 3).map (fun j => if 2 * i * 3 + 3 + j = 0 then 1 else 0)
          = (List.range 3).map (fun _ => (0 : Nat)) :=
        List.map_congr_left (by intro j _; rw [if_neg (by omega)])
      rw [e1, e2]
      show ((((0 : Nat) : Int) - ((0 : Nat) : Int)) % 3329).toNat = if i = 0 then 1 else 0
      rw [if_neg h0]
      rfl
  rw [List.map_congr_left hpt]
  decide

set_option maxRecDepth 100000 in
/-- The coefficients sample_poly_cbd computes for eta = 3 when every PRF
output bit is 0. -/
lemma cbd_body_zero (B : List Nat)
    (hB : ∀ idx, (bytes_to_bits B).getD idx 0 = 0) :
    (List.range 256).map (fun i =>
      (((((List.range 3).map
            (fun j => (bytes_to_bits B).getD (2 * i * 3 + j) 0)).sum : Int)
        - ((((List.range 3).map
            (fun j => (bytes_to_bits B).getD (2 * i * 3 + 3 + j) 0)).sum : Int)))
        % 3329).toNat)
      = List.replicate 256 0 := by
  have hpt : ∀ i ∈ List.range 256,
      (((((List.range 3).map
            (fun j => (bytes_to_bits B).getD (2 * i * 3 + j) 0)).sum : Int)
        - ((((List.range 3).map
            (fun j => (bytes_to_bits B).getD (2 * i * 3 + 3 + j) 0)).sum : Int)))
        % 3329).toNat
        = (fun _ => (0 : Nat)) i := by
    intro i _
    have e1 : (List.range 3).map (fun j => (bytes_to_bits B).getD (2 * i * 3 + j) 0)
        = (List.range 3).map (fun _ => (0 : Nat)) :=
      List.map_congr_left (fun j _ => hB _)
    have e2 : (List.range 3).map (fun j => (bytes_to_bits B).getD (2 * i * 3 + 3 + j) 0)
        = (List.range 3).map (fun _ => (0 : Nat)) :=
      List.map_congr_left (fun j _ => hB _)
    rw [e1, e2]
    rfl
  rw [List.map_congr_left hpt]
  decide

lemma bytes_to_bits_replicate_zero : ∀ m,
    bytes_to_bits (List.replicate m (0 : Nat)) = List.replicate (8 * m) 0 := by
  intro m
  induction m with
  | zero => rfl
  | succ m ih =>
    rw [List.replicate_succ, bytes_to_bits_cons, ih]
    rw [show 8 * (m + 1) = 8 + 8 * m by ring, List.replicate_add]
    rfl

/-- Evaluation of the CBD sampler under the oracle OC6: nonce 0 yields the
polynomial (1, 0, ..., 0), every other nonce the zero polynomial. -/
lemma OC6_cbd (nonce : Nat) (hn : nonce < 256) :
    sample_poly_cbd OC6 (List.replicate 32 0) nonce 3
      = some (if nonce = 0 then 1 :: List.replicate 255 0 else List.replicate 256 0) := by
  unfold sample_poly_cbd PRF
  rw [if_pos (Or.inr rfl), if_pos (by decide), if_pos hn, if_pos (Or.inr rfl),
    if_pos (by decide), if_pos (show ([nonce] : List Nat).length = 1 from rfl)]
  simp only [Option.map_some']
  refine congrArg some ?_
  by_cases h0 : nonce = 0
  · subst h0
    rw [if_pos rfl]
    have hBlit : (List.range (64 * 3)).map
        (OC6.shake256 (List.replicate 32 0 ++ [0]))
        = 1 :: List.replicate 191 0 := by
      rw [show (List.range (64 * 3)) = 0 :: (List.range 191).map Nat.succ from
        List.range_succ_eq_map 191]
      rw [List.map_cons, List.map_map]
      refine congrArg₂ List.cons rfl ?_
      rw [List.eq_replicate_iff]
      refine ⟨by simp, ?_⟩
      intro b hb
      rw [List.mem_map] at hb
      obtain ⟨n, _, rfl⟩ := hb
      show (if n.succ = 0 ∧ (List.replicate 32 (0 : Nat) ++ [0]).getD 32 0 = 0
          then 1 else 0) = 0
      rw [if_neg (by intro hcon; exact Nat.succ_ne_zero n hcon.1)]
    rw [hBlit]
    have hbits : bytes_to_bits ((1 : Nat) :: List.replicate 191 0)
        = 1 :: List.replicate 1535 0 := by
      rw [bytes_to_bits_cons, bytes_to_bits_replicate_zero]
      show ((1 : Nat) :: List.replicate 7 0) ++ List.replicate (8 * 191) 0
          = 1 :: List.replicate 1535 0
      rw [List.cons_append, ← List.replicate_add]
    exact cbd_body_delta (1 :: List.replicate 191 0)
      (by intro idx; rw [hbits]; exact getD_one_cons_replicate 1535 idx)
  · rw [if_neg h0]
    have hBlit : (List.range (64 * 3)).map
        (OC6.shake256 (List.replicate 32 0 ++ [nonce]))
        = List.replicate 192 0 := by
      rw [List.eq_replicate_iff]
      refine ⟨by simp, ?_⟩
      intro b hb
      rw [List.mem_map] at hb
      obtain ⟨n, _, rfl⟩ := hb
      have hg : (List.replicate 32 (0 : Nat) ++ [nonce]).getD 32 0 = nonce := by
        rw [List.getD_append_right _ _ _ _ (by simp)]
        simp
      show (if n = 0 ∧ (List.replicate 32 (0 : Nat) ++ [nonce]).getD 32 0 = 0
          then 1 else 0) = 0
      rw [hg, if_neg (by intro hcon; exact h0 hcon.2)]
    rw [hBlit]
    exact cbd_body_zero (List.replicate 192 0)
      (by intro idx
          rw [bytes_to_bits_replicate_zero]
          exact getD_replicate_zero (8 * 192) idx)

set_option maxRecDepth 100000 in
/-- Claim C6 (code bug): FIPS 203 serializes dk_PKE = ByteEncode12(s_hat)
with s_hat = NTT(s), but k_pke_keygen serializes the STANDARD-domain s
itself.  With the oracle OC6 and the all-zero seed under ML-KEM-512, the
sampled secret vector s is ((1, 0, ..., 0), (0, ..., 0)); the key returned
by k_pke_keygen serializes that standard-domain s, decoding the first
384-byte block of the secret key returns s_0 itself, and s_0 differs from
NTT(s_0) at coefficient 2 — so the serialized block is not the NTT-domain
polynomial the spec mandates. -/
theorem C6_secret_key_ntt_counterexample :
    (k_pke_keygen OC6 (List.replicate 32 0) ML_KEM_512 200).map Prod.snd
        = serialize_secret_key [1 :: List.replicate 255 0, List.replicate 256 0] ∧
    (serialize_secret_key [1 :: List.replicate 255 0, List.replicate 256 0]).bind
        (fun sk => byte_decode_12 (sk.take 384))
        = some (1 :: List.replicate 255 0) ∧
    ntt (polyOfList (1 :: List.replicate 255 0)) 2
        ≠ polyOfList (1 :: List.replicate 255 0) 2 := by
  have hseeds : k_pke_keygen_seeds OC6 (List.replicate 32 0)
      = (List.replicate 32 0, List.replicate 32 0) := by decide
  have hs : sample_secret_vector OC6 (List.replicate 32 0) ML_KEM_512.k
      ML_KEM_512.eta1 0 = some [1 :: List.replicate 255 0, List.replicate 256 0] := by
    show (List.range 2).mapM (fun i => sample_poly_cbd OC6 (List.replicate 32 0) (0 + i) 3)
        = some [1 :: List.replicate 255 0, List.replicate 256 0]
    rw [show List.range 2 = [0, 1] from rfl]
    rw [List.mapM_cons, List.mapM_cons, List.mapM_nil]
    rw [show (0 + 0 : Nat) = 0 from rfl, show (0 + 1 : Nat) = 1 from rfl]
    rw [OC6_cbd 0 (by omega), OC6_cbd 1 (by omega)]
    rfl
  have he : sample_error_vector OC6 (List.replicate 32 0) ML_KEM_512.k
      ML_KEM_512.eta1 ML_KEM_512.k = some [List.replicate 256 0, List.replicate 256 0] := by
    show (List.range 2).mapM (fun i => sample_poly_cbd OC6 (List.replicate 32 0) (2 + i) 3)
        = some [List.replicate 256 0, List.replicate 256 0]
    rw [show List.range 2 = [0, 1] from rfl]
    rw [List.mapM_cons, List.mapM_cons, List.mapM_nil]
    rw [show (2 + 0 : Nat) = 2 from rfl, show (2 + 1 : Nat) = 3 from rfl]
    rw [OC6_cbd 2 (by omega), OC6_cbd 3 (by omega)]
    rfl
  have hA : (sample_matrix_A OC6 (List.replicate 32 0) ML_KEM_512.k 200).isSome := by decide
  obtain ⟨A, hAv⟩ := Option.isSome_iff_exists.mp hA
  have hb0 : byte_encode_12 (1 :: List.replicate 255 0)
      = some (1 :: List.replicate 383 0) := by decide
  have hb1 : byte_encode_12 (List.replicate 256 (0 : Nat))
      = some (List.replicate 384 0) := by decide
  have hser : serialize_secret_key [1 :: List.replicate 255 0, List.replicate 256 0]
      = some ((1 :: List.replicate 383 0) ++ List.replicate 384 0) := by
    unfold serialize_secret_key
    rw [List.mapM_cons, List.mapM_cons, List.mapM_nil, hb0, hb1]
    rfl
  refine ⟨?_, ?_, by decide⟩
  · rw [k_pke_keygen_sk_eq _ _ _ _ (by decide), hseeds, hAv, Option.some_bind, hs,
      Option.some_bind, he, Option.some_bind]
  · rw [hser, Option.some_bind]
    have htake : ((1 :: List.replicate 383 (0 : Nat)) ++ List.replicate 384 0).take 384
        = 1 :: List.replicate 383 0 := by decide
    rw [htake]
    have hrt := byte_decode_byte_encode 12 (1 :: List.replicate 255 0)
      (by omega) (by omega) (by decide) (by decide)
    rw [show byte_encode (1 :: List.replicate 255 0) 12
        = some (1 :: List.replicate 383 0) from hb0, Option.some_bind] at hrt
    exact hrt

end MLKEM
